import Mathlib

/-!
Verification development for the pathtracer repository.

The geometric and BVH code of the repository is embedded shallowly:
f32 arithmetic is modelled by exact rational arithmetic, and the IEEE-754
infinities that the slab test relies on (1.0 / 0.0 = +inf, 0.0 * inf = NaN,
and the NaN-suppressing f32::min / f32::max) are modelled by an extended
rational type `ERat`.  Fallible code (assert!, unwrap) is modelled with
Option.  The BVH traversal in src/bvh.rs is generic over the `Intersect`
trait; `Prim` models an arbitrary implementor of that trait by its set of
candidate intersections, with nearest-hit-in-interval semantics matching
the concrete `Sphere` implementor.
-/

set_option maxRecDepth 100000

namespace Pathtracer

/-- 3-vector over exact rationals, modelling glam's `Vec3` of f32. -/
structure Vec3 where
  x : ℚ
  y : ℚ
  z : ℚ
deriving DecidableEq

instance : Add Vec3 := ⟨fun a b => ⟨a.x + b.x, a.y + b.y, a.z + b.z⟩⟩
instance : Sub Vec3 := ⟨fun a b => ⟨a.x - b.x, a.y - b.y, a.z - b.z⟩⟩
instance : Neg Vec3 := ⟨fun a => ⟨-a.x, -a.y, -a.z⟩⟩
instance : Zero Vec3 := ⟨⟨0, 0, 0⟩⟩
instance : SMul ℚ Vec3 := ⟨fun q v => ⟨q * v.x, q * v.y, q * v.z⟩⟩

/-- Dot product, modelling `Vec3::dot`. -/
def Vec3.dot (a b : Vec3) : ℚ := a.x * b.x + a.y * b.y + a.z * b.z

/-- Axis tag, from `enum Axis` in src/bvh.rs. -/
inductive Axis where
  | X
  | Y
  | Z
deriving DecidableEq

/-- Component access by axis, modelling `GetAxis for Vec3` in src/bvh.rs. -/
def Vec3.axis (v : Vec3) : Axis → ℚ
  | Axis.X => v.x
  | Axis.Y => v.y
  | Axis.Z => v.z

/-- Extended rationals modelling the f32 values that can arise in the slab
test: finite values, the two infinities produced by `1.0 / 0.0`, and NaN
produced by `0.0 * inf`. -/
inductive ERat where
  | fin (q : ℚ)
  | pinf
  | ninf
  | nan
deriving DecidableEq

namespace ERat

/-- Reciprocal as computed by `Ray::new`: `1.0 / d`, with `1.0 / 0.0 = +inf`
per IEEE-754. -/
def rcp (d : ℚ) : ERat := if d = 0 then pinf else fin (1 / d)

/-- Product of a finite value with an extended value, modelling f32
multiplication in `(self.min - ray.origin) * ray.inv_direction`:
`0.0 * inf = NaN`. -/
def mulQ (q : ℚ) : ERat → ERat
  | fin r => fin (q * r)
  | pinf => if 0 < q then pinf else if q < 0 then ninf else nan
  | ninf => if 0 < q then ninf else if q < 0 then pinf else nan
  | nan => nan

/-- Model of Rust's `f32::min`: if one argument is NaN the other argument is
returned. -/
def fmin : ERat → ERat → ERat
  | nan, b => b
  | a, nan => a
  | ninf, _ => ninf
  | _, ninf => ninf
  | fin a, fin b => fin (min a b)
  | fin a, pinf => fin a
  | pinf, fin b => fin b
  | pinf, pinf => pinf

/-- Model of Rust's `f32::max`: if one argument is NaN the other argument is
returned. -/
def fmax : ERat → ERat → ERat
  | nan, b => b
  | a, nan => a
  | pinf, _ => pinf
  | _, pinf => pinf
  | fin a, fin b => fin (max a b)
  | fin a, ninf => fin a
  | ninf, fin b => fin b
  | ninf, ninf => ninf

/-- Model of the IEEE comparison `a <= b`: false whenever either side is
NaN. -/
def fle : ERat → ERat → Bool
  | nan, _ => false
  | _, nan => false
  | ninf, _ => true
  | fin _, ninf => false
  | fin a, fin b => decide (a ≤ b)
  | fin _, pinf => true
  | pinf, pinf => true
  | pinf, _ => false

end ERat

/-- Inverse direction of a ray, three extended rationals, modelling the
`inv_direction` field computed once in `Ray::new`. -/
structure EVec3 where
  x : ERat
  y : ERat
  z : ERat
deriving DecidableEq

/-- Ray, from src/main.rs.  The `inv_direction` field of the Rust struct is
always computed from `direction` by `Ray::new`, so it is embedded as the
derived function `Ray.invDirection` rather than stored. -/
structure Ray where
  origin : Vec3
  direction : Vec3
deriving DecidableEq

/-- The precomputed componentwise reciprocal of the direction
(`Ray::new`), with IEEE infinities for zero components. -/
def Ray.invDirection (r : Ray) : EVec3 :=
  ⟨ERat.rcp r.direction.x, ERat.rcp r.direction.y, ERat.rcp r.direction.z⟩

/-- Point at parameter, modelling `Ray::point_at_parameter`:
`origin + t * direction`. -/
def Ray.at (r : Ray) (t : ℚ) : Vec3 := r.origin + t • r.direction

/-- Axis-aligned bounding box, from src/primitives/aabb.rs. -/
structure AABB where
  min : Vec3
  max : Vec3
deriving DecidableEq

/-- The `Default` AABB (`#[derive(Default)]`): both corners at the
origin. -/
def AABB.deflt : AABB := ⟨0, 0⟩

/-- Union of two boxes, componentwise min/max, from `AABB::union`. -/
def AABB.union (a b : AABB) : AABB :=
  ⟨⟨Min.min a.min.x b.min.x, Min.min a.min.y b.min.y, Min.min a.min.z b.min.z⟩,
   ⟨Max.max a.max.x b.max.x, Max.max a.max.y b.max.y, Max.max a.max.z b.max.z⟩⟩

/-- Growing a box to contain a point, from `AABB::point_union`. -/
def AABB.point_union (a : AABB) (p : Vec3) : AABB :=
  ⟨⟨Min.min a.min.x p.x, Min.min a.min.y p.y, Min.min a.min.z p.z⟩,
   ⟨Max.max a.max.x p.x, Max.max a.max.y p.y, Max.max a.max.z p.z⟩⟩

/-- Axis of greatest extent, from `AABB::max_extent`.  Note the strict
comparisons from the source: X is chosen only when strictly larger than
both Y and Z, and Y only when strictly larger than Z. -/
def AABB.max_extent (b : AABB) : Axis :=
  let extent := b.max - b.min
  if extent.x > extent.y ∧ extent.x > extent.z then Axis.X
  else if extent.y > extent.z then Axis.Y
  else Axis.Z

/-- Surface area, from `AABB::surface_area`. -/
def AABB.surface_area (b : AABB) : ℚ :=
  let d := b.max - b.min
  2 * (d.x * d.y + d.x * d.z + d.y * d.z)

/-- Slab test, from `AABB::has_intersection` in src/primitives/aabb.rs.
The `t_min` and `t_max` arguments are ignored by the source (they are
bound as `_t_min`, `_t_max`); the test only compares against 0. -/
def AABB.has_intersection (b : AABB) (ray : Ray) (_t_min _t_max : ℚ) : Bool :=
  let inv := ray.invDirection
  let t1x := ERat.mulQ (b.min.x - ray.origin.x) inv.x
  let t2x := ERat.mulQ (b.max.x - ray.origin.x) inv.x
  let t1y := ERat.mulQ (b.min.y - ray.origin.y) inv.y
  let t2y := ERat.mulQ (b.max.y - ray.origin.y) inv.y
  let t1z := ERat.mulQ (b.min.z - ray.origin.z) inv.z
  let t2z := ERat.mulQ (b.max.z - ray.origin.z) inv.z
  let tmin := ERat.fmin t1x t2x
  let tmax := ERat.fmax t2x t1x
  let tmin := ERat.fmax tmin (ERat.fmin t1y t2y)
  let tmax := ERat.fmin tmax (ERat.fmax t1y t2y)
  let tmin := ERat.fmax tmin (ERat.fmin t1z t2z)
  let tmax := ERat.fmin tmax (ERat.fmax t1z t2z)
  ERat.fle (ERat.fmax tmin (ERat.fin 0)) tmax

/-- Membership of a point in a box (closed), the semantics of an AABB
containing a point. -/
def AABB.containsPoint (b : AABB) (p : Vec3) : Prop :=
  b.min.x ≤ p.x ∧ b.min.y ≤ p.y ∧ b.min.z ≤ p.z ∧
  p.x ≤ b.max.x ∧ p.y ≤ b.max.y ∧ p.z ≤ b.max.z

instance (b : AABB) (p : Vec3) : Decidable (b.containsPoint p) :=
  inferInstanceAs (Decidable (b.min.x ≤ p.x ∧ b.min.y ≤ p.y ∧ b.min.z ≤ p.z ∧
    p.x ≤ b.max.x ∧ p.y ≤ b.max.y ∧ p.z ≤ b.max.z))

/-- Box inclusion, componentwise. -/
def AABB.sub (a b : AABB) : Prop :=
  b.min.x ≤ a.min.x ∧ b.min.y ≤ a.min.y ∧ b.min.z ≤ a.min.z ∧
  a.max.x ≤ b.max.x ∧ a.max.y ≤ b.max.y ∧ a.max.z ≤ b.max.z

instance (a b : AABB) : Decidable (a.sub b) :=
  inferInstanceAs (Decidable (b.min.x ≤ a.min.x ∧ b.min.y ≤ a.min.y ∧ b.min.z ≤ a.min.z ∧
    a.max.x ≤ b.max.x ∧ a.max.y ≤ b.max.y ∧ a.max.z ≤ b.max.z))

/-- Intersection record, from `struct Hit` in src/main.rs.  The
`Arc<dyn Material>` reference (shared, immutable) is modelled by an opaque
numeric handle. -/
structure Hit where
  t : ℚ
  point : Vec3
  normal : Vec3
  material : Option ℕ
deriving DecidableEq

/-- Nearest element of a list of candidate hits; the earliest hit with
minimal `t` (ties keep the earlier hit). -/
def firstMin : List Hit → Option Hit
  | [] => none
  | h :: hs =>
    match firstMin hs with
    | none => some h
    | some m => if m.t < h.t then some m else some h

/-- Model of an implementor of the `Intersect` trait (src/main.rs), which is
what `BVH::intersection` is generic over (`geometry: &[impl Intersect]`).
An implementor is described by its set of candidate intersections per ray
(for `Sphere` those are the at most two quadratic roots, in increasing
order) and its bounding box (`bounds()`, always `Some` for scene
geometry). -/
structure Prim where
  cands : Ray → List Hit
  bnds : AABB

/-- Nearest-hit query of an `Intersect` implementor: the hit with smallest
`t` strictly inside `(t_min, t_max)`, as computed by
`Sphere::intersection` (which tries the smaller root first). -/
def Prim.intersection (p : Prim) (r : Ray) (t_min t_max : ℚ) : Option Hit :=
  firstMin ((p.cands r).filter (fun h => decide (t_min < h.t ∧ h.t < t_max)))

/-- Build-time record, from `struct GeometryInfo` in src/bvh.rs. -/
structure GeometryInfo where
  geom : Prim
  index : ℕ
  center : Vec3
  bounds : AABB

/-- SAH bucket, from `struct SAHBucket` in src/bvh.rs. -/
structure SAHBucket where
  count : ℕ
  bounds : AABB

/-- The `Default` SAHBucket. -/
def SAHBucket.deflt : SAHBucket := ⟨0, AABB.deflt⟩

/-- Ephemeral build tree, from `enum BuildNodeInner` / `struct BuildNode`
in src/bvh.rs, with the bounding box stored in each constructor. -/
inductive BuildNode where
  | interior (bounds : AABB) (left right : BuildNode)
  | leaf (bounds : AABB) (geometry_offset num_primitives : ℕ)
deriving DecidableEq

/-- Bounds of a build node. -/
def BuildNode.bounds : BuildNode → AABB
  | .interior b _ _ => b
  | .leaf b _ _ => b

/-- Smart constructor from `BuildNode::interior`: the bounds is the union
of both children's bounds. -/
def BuildNode.mkInterior (l r : BuildNode) : BuildNode :=
  .interior (l.bounds.union r.bounds) l r

/-- Number of nodes of a build tree. -/
def BuildNode.size : BuildNode → ℕ
  | .interior _ l r => 1 + l.size + r.size
  | .leaf _ _ _ => 1

/-- Flattened node, from `enum FlatNodeInner` / `struct FlatNode` in
src/bvh.rs. -/
inductive FlatNodeInner where
  | interior (left right : ℕ)
  | leaf (geometry_offset num_primitives : ℕ)
deriving DecidableEq

structure FlatNode where
  bounds : AABB
  inner : FlatNodeInner
deriving DecidableEq

/-- Bucket index of a centroid, from the closure in `BVH::build`:
`((c - min) / (max - min) * 12) as usize`, clamped to 11 when it equals 12.
Rational division by zero yields 0, matching the Rust `NaN as usize = 0`
cast in the degenerate all-centroids-equal case. -/
def bucketIndex (centroids : AABB) (axis : Axis) (c : Vec3) : ℕ :=
  let q := (c.axis axis - centroids.min.axis axis)
    / (centroids.max.axis axis - centroids.min.axis axis) * 12
  let b := (⌊q⌋).toNat
  if b = 12 then 11 else b

/-- The twelve SAH buckets accumulated over a window of geometry, from the
first loop of `BVH::build`.  `List.set` leaves the list unchanged on an
out-of-range index, matching the silent `buckets.get_mut(b)` skip. -/
def computeBuckets (gs : List GeometryInfo) (centroids : AABB) (axis : Axis) :
    List SAHBucket :=
  gs.foldl
    (fun bks g =>
      let b := bucketIndex centroids axis g.center
      match bks.get? b with
      | some bucket => bks.set b ⟨bucket.count + 1, bucket.bounds.union g.bounds⟩
      | none => bks)
    (List.replicate 12 SAHBucket.deflt)

/-- Fold of a list of buckets into one, from the `fold` calls computing
`left` and `right` in `BVH::build`. -/
def foldBuckets (bks : List SAHBucket) : SAHBucket :=
  bks.foldl (fun a b => ⟨a.count + b.count, a.bounds.union b.bounds⟩) SAHBucket.deflt

/-- The eleven SAH split costs, from the cost loop in `BVH::build`. -/
def sahCosts (bks : List SAHBucket) (parent : AABB) : List ℚ :=
  (List.range 11).map fun i =>
    let left := foldBuckets (bks.take (i + 1))
    let right := foldBuckets (bks.drop (i + 1))
    1 / 8 + (left.count * left.bounds.surface_area
      + right.count * right.bounds.surface_area) / parent.surface_area

/-- Minimum-cost fold, from the fold with initial value
`(0, f32::INFINITY)` in `BVH::build`; `none` models the infinity that no
finite cost has replaced yet, and the first strict minimum wins. -/
def selectMinCost (cs : List ℚ) : ℕ × Option ℚ :=
  cs.enum.foldl
    (fun pc ic =>
      match pc.2 with
      | none => (ic.1, some ic.2)
      | some pcv => if ic.2 < pcv then (ic.1, some ic.2) else pc)
    (0, none)

/-- Comparison of the folded minimum cost with the window size, from
`min_cost < geometry.len() as f32`; an `∞` minimum compares false. -/
def minCostLt (mc : Option ℚ) (n : ℕ) : Bool :=
  match mc with
  | some c => decide (c < (n : ℚ))
  | none => false

/-- The SAH partition of a geometry window, from the interior branch of
`BVH::build`: it recomputes the window bounds, centroid bounds, split
axis, buckets and minimum-cost bucket, partitions the window by the
boolean bucket predicate (Rust's `sort_unstable_by_key` on a boolean key
puts the `false` block before the `true` block; the order inside each
block is unspecified and modelled as stable), and returns the partitioned
window together with `mid`, the position of the first element satisfying
the predicate (`len / 2` when none does, from `unwrap_or`). -/
def partitionStep (gs : List GeometryInfo) : List GeometryInfo × ℕ :=
  let bounds := gs.foldl (fun b g => b.union g.geom.bnds) AABB.deflt
  let centroids := gs.foldl (fun b g => b.point_union g.center) AABB.deflt
  let split_axis := bounds.max_extent
  let buckets := computeBuckets gs centroids split_axis
  let mc := selectMinCost (sahCosts buckets bounds)
  let fb := fun g => decide (bucketIndex centroids split_axis g.center ≤ mc.1)
  let sorted := gs.filter (fun g => !fb g) ++ gs.filter fb
  (sorted, (sorted.findIdx? fb).getD (sorted.length / 2))

/-- One recursive step of `BVH::build` (src/bvh.rs lines 90-202), embedded
as a pure function.  The mutable geometry window becomes the input list;
the shared `index_to_geometry` vector becomes the returned index list
(`offset` is the length already emitted, used for leaf offsets); the
shared `total_nodes` counter becomes the returned count.  A panic —
either the `assert!` on a degenerate partition, or the slice indexing
`geometry[..mid]` when `mid` is past the end — is modelled by `none`.
The `fuel` argument makes the recursion structural: every recursive call
is on a strictly shorter window, so the recursion depth is bounded by the
window length, and the fuel used by `BVH.new` (the scene size) is never
exhausted. -/
def build (fuel : ℕ) (gs : List GeometryInfo) (offset : ℕ) (split_threshold : ℕ) :
    Option (BuildNode × List ℕ × ℕ) :=
  match fuel with
  | 0 => none
  | fuel + 1 =>
    let bounds := gs.foldl (fun b g => b.union g.geom.bnds) AABB.deflt
    if gs.length = 1 then
      some (.leaf bounds offset gs.length, gs.map (·.index), 1)
    else
      let centroids := gs.foldl (fun b g => b.point_union g.center) AABB.deflt
      let split_axis := bounds.max_extent
      let buckets := computeBuckets gs centroids split_axis
      let mc := selectMinCost (sahCosts buckets bounds)
      if gs.length > split_threshold ∨ minCostLt mc.2 gs.length then
        if (partitionStep gs).2 = 0 ∨ (partitionStep gs).1.length ≤ (partitionStep gs).2 then
          none
        else
          match build fuel ((partitionStep gs).1.take (partitionStep gs).2) offset
              split_threshold with
          | none => none
          | some (ln, lidx, lcnt) =>
            match build fuel ((partitionStep gs).1.drop (partitionStep gs).2)
                (offset + lidx.length) split_threshold with
            | none => none
            | some (rn, ridx, rcnt) =>
              some (BuildNode.mkInterior ln rn, lidx ++ ridx, 1 + lcnt + rcnt)
      else
        some (.leaf bounds offset gs.length, gs.map (·.index), 1)

/-- Recursive flattening, from `BVH::flatten_impl`: appends the subtree's
nodes in pre-order to the accumulator and returns the new list together
with the offset of the subtree's root.  For an interior node a
placeholder is pushed first and its child indices are patched in after
both children have been written (the patch keeps the node's bounds). -/
def flattenImpl : BuildNode → List FlatNode → List FlatNode × ℕ
  | .interior bd l r, tree =>
    let t1 := tree ++ [⟨bd, .interior 0 0⟩]
    let p2 := flattenImpl l t1
    let p3 := flattenImpl r p2.1
    (p3.1.set tree.length ⟨bd, .interior p2.2 p3.2⟩, tree.length)
  | .leaf bd go np, tree => (tree ++ [⟨bd, .leaf go np⟩], tree.length)

/-- Flattening entry point, from `BVH::flatten`.  The `size` argument is
only used as a capacity hint in the source. -/
def flatten (root : BuildNode) (_size : ℕ) : List FlatNode :=
  (flattenImpl root []).1

/-- Combination of the two child results of an interior node, from the
`match (left, right)` in the traversal: with two hits the closer `t` wins
(ties pick the right child). -/
def combineHits : Option Hit → Option Hit → Option Hit
  | some l, some r => if l.t < r.t then some l else some r
  | some l, none => some l
  | none, r => r

/-- Linear scan of a leaf's primitive range, from the leaf arm of the
traversal: the closest hit seen so far shrinks the upper bound for the
remaining primitives. -/
def leafScan (ps : List Prim) (r : Ray) (t_min t_max : ℚ) : Option Hit :=
  (ps.foldl
    (fun acc p =>
      match p.intersection r t_min acc.2 with
      | some h => (some h, h.t)
      | none => acc)
    ((none : Option Hit), t_max)).1

/-- The slice `geometry[offset..offset+count]` of the permuted geometry. -/
def slice (G : List Prim) (offset count : ℕ) : List Prim :=
  (G.drop offset).take count

/-- The recursive flat-tree traversal, from the inner `intersect` function
of `BVH::intersection` (src/bvh.rs lines 252-326).  The source recursion
is bounded by the strictly increasing child indices of a well-formed
flattened tree; here a fuel argument (instantiated with the tree size at
the top level, which dominates the recursion depth) makes it total.
`tree.get? idx` with an out-of-range index yields no hit, matching the
source's `tree.get(..).and_then(..)`. -/
def intersectFlat (tree : List FlatNode) (G : List Prim) (r : Ray)
    (t_min t_max : ℚ) : ℕ → FlatNode → Option Hit
  | 0, _ => none
  | fuel + 1, node =>
    if node.bounds.has_intersection r t_min t_max then
      match node.inner with
      | .interior li ri =>
        combineHits
          ((tree[li]?).bind (intersectFlat tree G r t_min t_max fuel))
          ((tree[ri]?).bind (intersectFlat tree G r t_min t_max fuel))
      | .leaf go np => leafScan (slice G go np) r t_min t_max
    else none

/-- The BVH, from `struct BVH`: the permuted geometry and the flattened
tree. -/
structure BVH where
  geometry : List Prim
  tree : List FlatNode

/-- The geometry info list precomputed by `BVH::new` before building:
index, centroid and bounds per instance.  The source computes the
centroid as `0.5 * (bounds.max - bounds.min)` exactly (this is the
half-extent, not the midpoint). -/
def mkInfos (geometry : List Prim) : List GeometryInfo :=
  geometry.enum.map fun ig =>
    let bounds := ig.2.bnds
    GeometryInfo.mk ig.2 ig.1 ((1 / 2 : ℚ) • (bounds.max - bounds.min)) bounds

/-- Construction entry point, from `BVH::new`.  Panics are modelled by
`none`: the `assert!(!geometry.is_empty())`, and the `unwrap` of
`geometry.get(i)` while permuting. -/
def BVH.new (geometry : List Prim) : Option BVH :=
  if geometry.isEmpty then none
  else
    match build (mkInfos geometry).length (mkInfos geometry) 0 64 with
    | none => none
    | some (root, index_to_geometry, total_nodes) =>
      match index_to_geometry.mapM (fun i => geometry[i]?) with
      | none => none
      | some sorted => some ⟨sorted, flatten root total_nodes⟩

/-- Nearest-hit query, from `impl Intersect for BVH`: start at node 0
(`tree.first().unwrap()`, `none` models the panic on an empty tree, which
`BVH::new` never produces). -/
def BVH.intersection (bvh : BVH) (r : Ray) (t_min t_max : ℚ) : Option Hit :=
  match bvh.tree.head? with
  | none => none
  | some node => intersectFlat bvh.tree bvh.geometry r t_min t_max bvh.tree.length node

/-- Minimum of a list of rationals, `none` for the empty list. -/
def listMin : List ℚ → Option ℚ
  | [] => none
  | q :: qs =>
    match listMin qs with
    | none => some q
    | some m => some (Min.min q m)

/-- The parameters found by a brute-force linear scan: every primitive's
nearest-hit query in the same fixed interval. -/
def bruteTs (ps : List Prim) (r : Ray) (t_min t_max : ℚ) : List ℚ :=
  ps.filterMap fun p => (p.intersection r t_min t_max).map Hit.t

/-- The minimum `t` over the brute-force linear scan. -/
def bruteMin (ps : List Prim) (r : Ray) (t_min t_max : ℚ) : Option ℚ :=
  listMin (bruteTs ps r t_min t_max)

/-- Spatial transform of an instance, from `struct Transform` in
src/primitives/instance.rs: translation and scale (the rotation field is
commented out in the source). -/
structure Transform where
  translation : Vec3
  scale : Vec3
deriving DecidableEq

/-- Instance, from `enum Instance` (its only variant `Reciver`): a shared
primitive, a shared material (modelled by an opaque handle) and a
transform. -/
structure Instance where
  primitive : Prim
  material : ℕ
  transform : Transform

/-- Nearest-hit query of an instance, from `impl Intersect for Instance`
(src/primitives/instance.rs lines 64-85).  The source only subtracts the
transform's translation from the ray origin (the full-matrix code paths
are commented out with FIXME), delegates, and attaches the material; the
hit's point and normal are returned unchanged. -/
def Instance.intersection (inst : Instance) (r : Ray) (t_min t_max : ℚ) :
    Option Hit :=
  let ray := Ray.mk (r.origin - inst.transform.translation) r.direction
  (inst.primitive.intersection ray t_min t_max).map fun h =>
    Hit.mk h.t h.point h.normal (some inst.material)

/-- Real-valued 3-vector for the material math of src/material.rs and the
background gradient, where `sqrt` forces exact reals. -/
structure Vec3R where
  x : ℝ
  y : ℝ
  z : ℝ

instance : Add Vec3R := ⟨fun a b => ⟨a.x + b.x, a.y + b.y, a.z + b.z⟩⟩
instance : Sub Vec3R := ⟨fun a b => ⟨a.x - b.x, a.y - b.y, a.z - b.z⟩⟩
instance : Mul Vec3R := ⟨fun a b => ⟨a.x * b.x, a.y * b.y, a.z * b.z⟩⟩
instance : Zero Vec3R := ⟨⟨0, 0, 0⟩⟩
instance : SMul ℝ Vec3R := ⟨fun q v => ⟨q * v.x, q * v.y, q * v.z⟩⟩

def Vec3R.dot (a b : Vec3R) : ℝ := a.x * b.x + a.y * b.y + a.z * b.z

/-- Euclidean length, glam's `Vec3::length`. -/
noncomputable def Vec3R.length (v : Vec3R) : ℝ := Real.sqrt (v.dot v)

/-- Normalization, glam's `Vec3::normalize`: the vector scaled by the
reciprocal of its length. -/
noncomputable def Vec3R.normalize (v : Vec3R) : Vec3R := (1 / v.length) • v

/-- Embedding of the exact-rational vectors into the real vectors. -/
def Vec3.toR (v : Vec3) : Vec3R := ⟨(v.x : ℝ), (v.y : ℝ), (v.z : ℝ)⟩

/-- Refraction, from `refract` in src/material.rs: normalize `v`, compute
the discriminant, and return the refracted vector only when the
discriminant is strictly positive. -/
noncomputable def refract (v n : Vec3R) (ni_over_nt : ℝ) : Option Vec3R :=
  let uv := v.normalize
  let dt := uv.dot n
  let discriminant := 1 - ni_over_nt * ni_over_nt * (1 - dt * dt)
  if 0 < discriminant then
    some (ni_over_nt • (uv - dt • n) - Real.sqrt discriminant • n)
  else none

/-- The discriminant named by the specification of `refract`:
`1 - ni_over_nt^2 * (1 - dot(v,n)^2)` with `v` normalized. -/
noncomputable def refractDiscriminant (v n : Vec3R) (ni_over_nt : ℝ) : ℝ :=
  1 - ni_over_nt * ni_over_nt * (1 - v.normalize.dot n * v.normalize.dot n)

/-- The bounce limit, from `static MAX_BOUNCES: u32 = 128` in
src/main.rs. -/
def MAX_BOUNCES : ℕ := 128

/-- Scatter result of a material, from `struct ScatterResult` in
src/material.rs. -/
structure ScatterResult where
  scattered : Ray
  attenuation : Vec3

/-- The background gradient computed by `color` for a ray that hits
nothing: blend between white and sky-blue by
`t = 0.5 * (normalized_direction.y + 1)`. -/
noncomputable def backgroundColor (r : Ray) : Vec3R :=
  let dir := (Vec3.toR r.direction).normalize
  let t := 1 / 2 * (dir.y + 1)
  ((1 : ℝ) - t) • Vec3R.mk 1 1 1 + t • Vec3R.mk (1 / 2) (7 / 10) 1

/-- The recursive integrator, from `color` in src/main.rs (lines 76-106).
The `&mut u32` bounce counter becomes an explicit argument incremented on
recursion; the material dispatch plus its random number generator is
abstracted into a deterministic scatter oracle indexed by the material
handle (the claims hold for every draw of the generator).  Black is
returned only when `bounces > MAX_BOUNCES`, a strict comparison in the
source. -/
noncomputable def color (scatter : ℕ → Ray → Hit → Option ScatterResult)
    (bvh : BVH) (ray : Ray) (bounces : ℕ) : Vec3R :=
  if hb : MAX_BOUNCES < bounces then 0
  else
    match bvh.intersection ray (1 / 10000) 10000000 with
    | some hit =>
      match hit.material.bind fun m => scatter m ray hit with
      | some s => Vec3.toR s.attenuation * color scatter bvh s.scattered (bounces + 1)
      | none => 0
    | none => backgroundColor ray
termination_by MAX_BOUNCES + 1 - bounces
decreasing_by
  simp only [not_lt] at hb
  omega

/-- Flat encoding of a build subtree whose root lands at index `off` of
the flattened array: the pre-order layout that `flatten_impl` produces,
with child indices made explicit. -/
def flatEnc (off : ℕ) : BuildNode → List FlatNode
  | .interior bd l r =>
    ⟨bd, .interior (off + 1) (off + 1 + l.size)⟩ ::
      (flatEnc (off + 1) l ++ flatEnc (off + 1 + l.size) r)
  | .leaf bd go np => [⟨bd, .leaf go np⟩]

/-- Traversal of the ephemeral build tree with the same node-local
behavior as the flat traversal; used to relate the flat traversal to the
brute-force scan. -/
def intersectBuild (G : List Prim) (r : Ray) (t_min t_max : ℚ) :
    BuildNode → Option Hit
  | .interior bd l rt =>
    if bd.has_intersection r t_min t_max then
      combineHits (intersectBuild G r t_min t_max l) (intersectBuild G r t_min t_max rt)
    else none
  | .leaf bd go np =>
    if bd.has_intersection r t_min t_max then slice G go np |> (leafScan · r t_min t_max)
    else none

/-- Contract of an `Intersect` implementor used by the BVH: every
candidate hit lies on the ray at its own parameter and inside the
implementor's bounding box (`bounds()`). -/
def PrimWF (p : Prim) : Prop :=
  ∀ r h, h ∈ p.cands r → h.point = r.at h.t ∧ p.bnds.containsPoint h.point

/-- Graze-freedom of a primitive for a ray: on every axis along which the
ray direction is zero, candidate hit points are strictly inside the
primitive's bounds.  Concrete sphere geometry satisfies this: a hit with
a zero direction component at the box face would be a tangency, which
`Sphere::intersection` rejects via its strict `discriminant > 0` test. -/
def NoGraze (p : Prim) (r : Ray) : Prop :=
  ∀ h ∈ p.cands r, ∀ ax, r.direction.axis ax = 0 →
    p.bnds.min.axis ax < h.point.axis ax ∧ h.point.axis ax < p.bnds.max.axis ax

/-- Correspondence between a build subtree and the multiset of scene
primitives it covers: leaves own their slice of the permuted geometry and
bound it; interior nodes own the concatenation of their children and
bound both children. -/
inductive NodeOK (G : List Prim) : BuildNode → List Prim → Prop where
  | leaf : ∀ bd go np prims, slice G go np = prims →
      (∀ p ∈ prims, p.bnds.sub bd) → NodeOK G (.leaf bd go np) prims
  | interior : ∀ bd l r pl pr, NodeOK G l pl → NodeOK G r pr →
      l.bounds.sub bd → r.bounds.sub bd →
      NodeOK G (.interior bd l r) (pl ++ pr)

/-- A concrete `Intersect` implementor for tests: it intersects the ray at
each parameter of `ts` whose point lies inside the box `bx`.  By
construction it satisfies the `Intersect` contract `PrimWF`. -/
def linePrim (ts : List ℚ) (bx : AABB) : Prim :=
  ⟨fun r => ts.filterMap fun t =>
    if bx.containsPoint (r.at t) then some (Hit.mk t (r.at t) 0 none) else none,
   bx⟩

/-- Default primitive with no candidate intersections, used only as the
`getD` fallback when extracting values that are proven to exist. -/
def primDflt : Prim := ⟨fun _ => [], AABB.deflt⟩

/-- Box fully behind the origin of `rayA` along its direction. -/
def boxA : AABB := ⟨⟨1, -1, -1⟩, ⟨2, 1, 1⟩⟩

/-- Primitive hit only behind the origin of `rayA` (at parameter -4). -/
def primA : Prim := linePrim [-4] boxA

/-- Ray starting at x = 5 and pointing away from `boxA`. -/
def rayA : Ray := ⟨⟨5, 0, 0⟩, ⟨1, 0, 0⟩⟩

/-- The BVH built over the single-primitive scene `[primA]`. -/
def bvhA : BVH := (BVH.new [primA]).getD ⟨[], []⟩

def boxB : AABB := ⟨⟨-1, -1, -1⟩, ⟨1, 1, 1⟩⟩

def primB : Prim := linePrim [3] boxB

def boxC : AABB := ⟨⟨4, 4, 4⟩, ⟨6, 6, 6⟩⟩

def primC : Prim := linePrim [9] boxC

/-- A two-primitive scene. -/
def scnB : List Prim := [primB, primC]

/-- Ray through both boxes of `scnB`, with no zero direction component. -/
def rayB : Ray := ⟨⟨-3, -3, -3⟩, ⟨1, 1, 1⟩⟩

/-- The BVH built over `scnB` (construction is proven to succeed). -/
def bvhB : BVH := (BVH.new scnB).getD ⟨[], []⟩

/-- The build result over `scnB` (proven to succeed). -/
def buildResB : BuildNode × List ℕ × ℕ :=
  (build (mkInfos scnB).length (mkInfos scnB) 0 64).getD (BuildNode.leaf AABB.deflt 0 0, [], 0)

/-- A BVH value with no geometry and no nodes (only used to instantiate
theorems whose conclusion is independent of the tree). -/
def bvhEmpty : BVH := ⟨[], []⟩

/-- A scatter oracle that always absorbs. -/
def scat0 : ℕ → Ray → Hit → Option ScatterResult := fun _ _ _ => none

/-- Ray that misses every box of `scnB` (it starts past all geometry and
points away). -/
def rayMiss : Ray := ⟨⟨100, 0, 0⟩, ⟨1, 0, 0⟩⟩

def boxD : AABB := ⟨⟨-2, -1, -1⟩, ⟨-1, 1, 1⟩⟩

/-- Primitive for the instance-transform test, hit at parameter 4. -/
def primD : Prim := linePrim [4] boxD

/-- Instance with translation (5,0,0) and non-uniform-capable scale field
set to (2,2,2). -/
def inst0 : Instance := ⟨primD, 7, ⟨⟨5, 0, 0⟩, ⟨2, 2, 2⟩⟩⟩

def ray0 : Ray := ⟨⟨0, 0, 0⟩, ⟨1, 0, 0⟩⟩

/-- Box with equal maximal X and Y extents (1) and a smaller Z extent. -/
def boxTie : AABB := ⟨⟨0, 0, 0⟩, ⟨1, 1, 0⟩⟩

def box1 : AABB := ⟨⟨0, 0, 0⟩, ⟨1, 1, 1⟩⟩

def box2 : AABB := ⟨⟨2, 2, 2⟩, ⟨3, 3, 3⟩⟩

def v0R : Vec3R := ⟨1, 0, 0⟩

def n0R : Vec3R := ⟨0, 1, 0⟩

/-- Minimum of two optional rationals, `none` acting as the neutral
element. -/
def combineMinQ : Option ℚ → Option ℚ → Option ℚ
  | none, y => y
  | some a, none => some a
  | some a, some b => some (Min.min a b)

/-- Per-axis hypothesis of the slab-soundness lemma, for the slab
`[mn, mx]`, ray coordinates `o`, `d` and parameter `t`: the point
coordinate is inside the slab, strictly when the direction component is
zero. -/
def axisOK (mn mx o d t : ℚ) : Prop :=
  (d = 0 → mn < o + t * d ∧ o + t * d < mx) ∧
  (d ≠ 0 → mn ≤ o + t * d ∧ o + t * d ≤ mx)

/-- Lower slab accumulator values compatible with parameter `t`: either
negative infinity or a finite value at most `t`. -/
def isLo (t : ℚ) (e : ERat) : Prop :=
  e = ERat.ninf ∨ ∃ l, e = ERat.fin l ∧ l ≤ t

/-- Upper slab accumulator values compatible with parameter `t`: either
positive infinity or a finite value at least `t`. -/
def isHi (t : ℚ) (e : ERat) : Prop :=
  e = ERat.pinf ∨ ∃ u, e = ERat.fin u ∧ t ≤ u

/-- The flat node written for the root of a subtree placed at offset
`off`. -/
def rootFlat (off : ℕ) : BuildNode → FlatNode
  | .interior bd l _ => ⟨bd, .interior (off + 1) (off + 1 + l.size)⟩
  | .leaf bd go np => ⟨bd, .leaf go np⟩

/-- The flat nodes written after the root of a subtree placed at offset
`off`. -/
def flatEncChildren (off : ℕ) : BuildNode → List FlatNode
  | .interior _ l r => flatEnc (off + 1) l ++ flatEnc (off + 1 + l.size) r
  | .leaf _ _ _ => []

/-! Component lemmas for the vector instances. -/

@[simp] theorem Vec3.add_x (a b : Vec3) : (a + b).x = a.x + b.x := rfl

@[simp] theorem Vec3.add_y (a b : Vec3) : (a + b).y = a.y + b.y := rfl

@[simp] theorem Vec3.add_z (a b : Vec3) : (a + b).z = a.z + b.z := rfl

@[simp] theorem Vec3.sub_x (a b : Vec3) : (a - b).x = a.x - b.x := rfl

@[simp] theorem Vec3.sub_y (a b : Vec3) : (a - b).y = a.y - b.y := rfl

@[simp] theorem Vec3.sub_z (a b : Vec3) : (a - b).z = a.z - b.z := rfl

@[simp] theorem Vec3.smul_x (q : ℚ) (v : Vec3) : (q • v).x = q * v.x := rfl

@[simp] theorem Vec3.smul_y (q : ℚ) (v : Vec3) : (q • v).y = q * v.y := rfl

@[simp] theorem Vec3.smul_z (q : ℚ) (v : Vec3) : (q • v).z = q * v.z := rfl

@[simp] theorem Ray.at_x (r : Ray) (t : ℚ) :
    (r.at t).x = r.origin.x + t * r.direction.x := rfl

@[simp] theorem Ray.at_y (r : Ray) (t : ℚ) :
    (r.at t).y = r.origin.y + t * r.direction.y := rfl

@[simp] theorem Ray.at_z (r : Ray) (t : ℚ) :
    (r.at t).z = r.origin.z + t * r.direction.z := rfl

/-! Lemmas about the nearest-candidate selection. -/

theorem firstMin_eq_none {xs : List Hit} : firstMin xs = none ↔ xs = [] := by
  cases xs with
  | nil => simp [firstMin]
  | cons h hs =>
    simp only [firstMin]
    cases firstMin hs with
    | none => simp
    | some m =>
      by_cases hm : m.t < h.t <;> simp [hm]

theorem firstMin_mem {xs : List Hit} {h : Hit} (hx : firstMin xs = some h) :
    h ∈ xs := by
  induction xs with
  | nil => simp [firstMin] at hx
  | cons y ys ih =>
    simp only [firstMin] at hx
    cases hys : firstMin ys with
    | none =>
      rw [hys] at hx
      simp at hx
      simp [hx]
    | some m =>
      rw [hys] at hx
      by_cases hm : m.t < y.t
      · simp [hm] at hx
        subst hx
        exact List.mem_cons_of_mem _ (ih hys)
      · simp [hm] at hx
        simp [hx]

theorem firstMin_le {xs : List Hit} {h : Hit} (hx : firstMin xs = some h) :
    ∀ h' ∈ xs, h.t ≤ h'.t := by
  induction xs generalizing h with
  | nil => simp [firstMin] at hx
  | cons y ys ih =>
    simp only [firstMin] at hx
    cases hys : firstMin ys with
    | none =>
      rw [hys] at hx
      simp at hx
      subst hx
      intro h' hh'
      rcases List.mem_cons.mp hh' with h1 | h2
      · exact le_of_eq (by rw [h1])
      · exact absurd (firstMin_eq_none.mp hys ▸ h2) (List.not_mem_nil h')
    | some m =>
      rw [hys] at hx
      intro h' hh'
      rcases List.mem_cons.mp hh' with h1 | h2
      · subst h1
        by_cases hm : m.t < h'.t
        · simp [hm] at hx
          subst hx
          exact le_of_lt hm
        · simp [hm] at hx
          subst hx
          exact le_refl _
      · by_cases hm : m.t < y.t
        · simp [hm] at hx
          subst hx
          exact ih hys h' h2
        · simp [hm] at hx
          subst hx
          exact le_trans (not_lt.mp hm) (ih hys h' h2)

theorem firstMin_filter_keep {xs : List Hit} {h : Hit} {c : ℚ}
    (hx : firstMin xs = some h) (hc : h.t < c) :
    firstMin (xs.filter fun x => decide (x.t < c)) = some h := by
  induction xs generalizing h with
  | nil => simp [firstMin] at hx
  | cons y ys ih =>
    simp only [firstMin] at hx
    cases hys : firstMin ys with
    | none =>
      rw [hys] at hx
      simp at hx
      subst hx
      have hnil : ys = [] := firstMin_eq_none.mp hys
      subst hnil
      simp [List.filter, hc, firstMin]
    | some m =>
      rw [hys] at hx
      by_cases hm : m.t < y.t
      · simp [hm] at hx
        subst hx
        have ihm := ih hys hc
        by_cases hyc : y.t < c
        · simp [List.filter, hyc, firstMin, ihm, hm]
        · simp [List.filter, hyc, ihm]
      · simp [hm] at hx
        subst hx
        by_cases hmc : m.t < c
        · have ihm := ih hys hmc
          simp [List.filter, hc, firstMin, ihm, hm]
        · have hnilf : ys.filter (fun x => decide (x.t < c)) = [] := by
            apply List.filter_eq_nil.mpr
            intro x hxmem
            have := firstMin_le hys x hxmem
            simp only [decide_eq_true_eq]
            push_neg
            exact le_trans (not_lt.mp hmc) this
          simp [List.filter, hc, hnilf, firstMin]

theorem firstMin_filter_drop {xs : List Hit} {h : Hit} {c : ℚ}
    (hx : firstMin xs = some h) (hc : c ≤ h.t) :
    firstMin (xs.filter fun x => decide (x.t < c)) = none := by
  apply firstMin_eq_none.mpr
  apply List.filter_eq_nil.mpr
  intro x hxmem
  have := firstMin_le hx x hxmem
  simp only [decide_eq_true_eq]
  push_neg
  exact le_trans hc this

/-! Lemmas about the nearest-hit query of an `Intersect` implementor. -/

theorem Prim.inter_elim {p : Prim} {r : Ray} {a b : ℚ} {h : Hit}
    (hi : p.intersection r a b = some h) :
    h ∈ p.cands r ∧ a < h.t ∧ h.t < b := by
  unfold Prim.intersection at hi
  have hm := firstMin_mem hi
  have hmem := List.mem_filter.mp hm
  refine ⟨hmem.1, ?_, ?_⟩
  · have := hmem.2
    simp at this
    exact this.1
  · have := hmem.2
    simp at this
    exact this.2

theorem Prim.inter_filter_eq (p : Prim) (r : Ray) (a b c : ℚ) (hc : c ≤ b) :
    ((p.cands r).filter fun h => decide (a < h.t ∧ h.t < c)) =
      (((p.cands r).filter fun h => decide (a < h.t ∧ h.t < b)).filter
        fun h => decide (h.t < c)) := by
  rw [List.filter_filter]
  apply List.filter_congr
  intro x _
  by_cases h1 : a < x.t <;> by_cases h2 : x.t < c
  · have h3 : x.t < b := lt_of_lt_of_le h2 hc
    simp [h1, h2, h3]
  · simp [h1, h2]
  · simp [h1]
  · simp [h1]

theorem Prim.inter_shrink {p : Prim} {r : Ray} {a b c : ℚ} {h : Hit}
    (hc : c ≤ b) (hi : p.intersection r a b = some h) (hlt : h.t < c) :
    p.intersection r a c = some h := by
  unfold Prim.intersection at hi ⊢
  rw [Prim.inter_filter_eq p r a b c hc]
  exact firstMin_filter_keep hi hlt

theorem Prim.inter_shrink_none {p : Prim} {r : Ray} {a b c : ℚ} {h : Hit}
    (hc : c ≤ b) (hi : p.intersection r a b = some h) (hge : c ≤ h.t) :
    p.intersection r a c = none := by
  unfold Prim.intersection at hi ⊢
  rw [Prim.inter_filter_eq p r a b c hc]
  exact firstMin_filter_drop hi hge

theorem Prim.inter_none_shrink {p : Prim} {r : Ray} {a b c : ℚ}
    (hc : c ≤ b) (hi : p.intersection r a b = none) :
    p.intersection r a c = none := by
  unfold Prim.intersection at hi ⊢
  rw [Prim.inter_filter_eq p r a b c hc]
  rw [firstMin_eq_none.mp hi]
  simp [firstMin]

/-! Soundness of the slab test: a box containing a point of the ray at a
nonnegative parameter (strictly inside on zero-direction axes) passes
`AABB::has_intersection`. -/

theorem isLo_fmax {t : ℚ} {a b : ERat} (ha : isLo t a) (hb : isLo t b) :
    isLo t (ERat.fmax a b) := by
  rcases ha with ha | ⟨l1, ha, hl1⟩ <;> rcases hb with hb | ⟨l2, hb, hl2⟩ <;>
    subst ha <;> subst hb
  · exact Or.inl rfl
  · exact Or.inr ⟨l2, rfl, hl2⟩
  · exact Or.inr ⟨l1, rfl, hl1⟩
  · exact Or.inr ⟨Max.max l1 l2, rfl, max_le hl1 hl2⟩

theorem isHi_fmin {t : ℚ} {a b : ERat} (ha : isHi t a) (hb : isHi t b) :
    isHi t (ERat.fmin a b) := by
  rcases ha with ha | ⟨u1, ha, hu1⟩ <;> rcases hb with hb | ⟨u2, hb, hu2⟩ <;>
    subst ha <;> subst hb
  · exact Or.inl rfl
  · exact Or.inr ⟨u2, rfl, hu2⟩
  · exact Or.inr ⟨u1, rfl, hu1⟩
  · exact Or.inr ⟨Min.min u1 u2, rfl, le_min hu1 hu2⟩

theorem fle_final {t : ℚ} {tmin tmax : ERat} (hlo : isLo t tmin)
    (hhi : isHi t tmax) (ht : 0 ≤ t) :
    ERat.fle (ERat.fmax tmin (ERat.fin 0)) tmax = true := by
  rcases hlo with hlo | ⟨l, hlo, hl⟩ <;> subst hlo <;>
    rcases hhi with hhi | ⟨u, hhi, hu⟩ <;> subst hhi
  · rfl
  · simp [ERat.fmax, ERat.fle]
    linarith
  · simp [ERat.fmax, ERat.fle]
  · simp [ERat.fmax, ERat.fle]
    constructor <;> linarith

theorem axis_contrib {mn mx o d t : ℚ} (h : axisOK mn mx o d t) :
    isLo t (ERat.fmin (ERat.mulQ (mn - o) (ERat.rcp d)) (ERat.mulQ (mx - o) (ERat.rcp d))) ∧
    isHi t (ERat.fmax (ERat.mulQ (mx - o) (ERat.rcp d)) (ERat.mulQ (mn - o) (ERat.rcp d))) ∧
    isHi t (ERat.fmax (ERat.mulQ (mn - o) (ERat.rcp d)) (ERat.mulQ (mx - o) (ERat.rcp d))) := by
  by_cases hd : d = 0
  · subst hd
    obtain ⟨hmn, hmx⟩ := h.1 rfl
    simp only [mul_zero, add_zero] at hmn hmx
    have h1 : mn - o < 0 := by linarith
    have h2 : 0 < mx - o := by linarith
    have e1 : ERat.mulQ (mn - o) (ERat.rcp 0) = ERat.ninf := by
      simp [ERat.rcp, ERat.mulQ, not_lt.mpr (le_of_lt h1), h1]
    have e2 : ERat.mulQ (mx - o) (ERat.rcp 0) = ERat.pinf := by
      simp [ERat.rcp, ERat.mulQ, h2]
    rw [e1, e2]
    exact ⟨Or.inl rfl, Or.inl rfl, Or.inl rfl⟩
  · obtain ⟨hmn, hmx⟩ := h.2 hd
    have e0 : ERat.rcp d = ERat.fin (1 / d) := by simp [ERat.rcp, hd]
    have key : t * d * (1 / d) = t := by field_simp
    rw [e0]
    simp only [ERat.mulQ, ERat.fmin, ERat.fmax]
    rcases lt_or_gt_of_ne hd with hneg | hpos
    · have hinv : 1 / d < 0 := by
        exact one_div_neg.mpr hneg
      have hA : t ≤ (mn - o) * (1 / d) := by
        have := mul_le_mul_of_nonpos_right (by linarith : mn - o ≤ t * d) (le_of_lt hinv)
        calc t = t * d * (1 / d) := key.symm
        _ ≤ (mn - o) * (1 / d) := this
      have hB : (mx - o) * (1 / d) ≤ t := by
        have := mul_le_mul_of_nonpos_right (by linarith : t * d ≤ mx - o) (le_of_lt hinv)
        calc (mx - o) * (1 / d) ≤ t * d * (1 / d) := this
        _ = t := key
      refine ⟨Or.inr ⟨_, rfl, ?_⟩, Or.inr ⟨_, rfl, ?_⟩, Or.inr ⟨_, rfl, ?_⟩⟩
      · exact le_trans (min_le_right _ _) hB
      · exact le_trans hA (le_max_right _ _)
      · exact le_trans hA (le_max_left _ _)
    · have hinv : 0 < 1 / d := by positivity
      have hA : (mn - o) * (1 / d) ≤ t := by
        have := mul_le_mul_of_nonneg_right (by linarith : mn - o ≤ t * d) (le_of_lt hinv)
        calc (mn - o) * (1 / d) ≤ t * d * (1 / d) := this
        _ = t := key
      have hB : t ≤ (mx - o) * (1 / d) := by
        have := mul_le_mul_of_nonneg_right (by linarith : t * d ≤ mx - o) (le_of_lt hinv)
        calc t = t * d * (1 / d) := key.symm
        _ ≤ (mx - o) * (1 / d) := this
      refine ⟨Or.inr ⟨_, rfl, ?_⟩, Or.inr ⟨_, rfl, ?_⟩, Or.inr ⟨_, rfl, ?_⟩⟩
      · exact le_trans (min_le_left _ _) hA
      · exact le_trans hB (le_max_left _ _)
      · exact le_trans hB (le_max_right _ _)

theorem slab_sound (bx : AABB) (r : Ray) (t a b : ℚ) (ht : 0 ≤ t)
    (hx : axisOK bx.min.x bx.max.x r.origin.x r.direction.x t)
    (hy : axisOK bx.min.y bx.max.y r.origin.y r.direction.y t)
    (hz : axisOK bx.min.z bx.max.z r.origin.z r.direction.z t) :
    bx.has_intersection r a b = true := by
  obtain ⟨hlx, hhx, _⟩ := axis_contrib hx
  obtain ⟨hly, _, hhy⟩ := axis_contrib hy
  obtain ⟨hlz, _, hhz⟩ := axis_contrib hz
  unfold AABB.has_intersection Ray.invDirection
  dsimp only
  exact fle_final (isLo_fmax (isLo_fmax hlx hly) hlz)
    (isHi_fmin (isHi_fmin hhx hhy) hhz) ht

/-- A primitive hit forces the slab test to pass on every box that
contains the primitive's bounds, provided the interval starts at a
nonnegative parameter. -/
theorem box_test_of_hit {p : Prim} {r : Ray} {h : Hit} {bx : AABB} {a b : ℚ}
    (hp : PrimWF p) (hg : NoGraze p r) (hsub : p.bnds.sub bx) (ha : 0 ≤ a)
    (hi : p.intersection r a b = some h) (c1 c2 : ℚ) :
    bx.has_intersection r c1 c2 = true := by
  obtain ⟨hc, hat, _⟩ := Prim.inter_elim hi
  obtain ⟨hpt, hin⟩ := hp r h hc
  have ht : 0 ≤ h.t := le_of_lt (lt_of_le_of_lt ha hat)
  obtain ⟨i1, i2, i3, i4, i5, i6⟩ := hin
  obtain ⟨s1, s2, s3, s4, s5, s6⟩ := hsub
  apply slab_sound bx r h.t c1 c2 ht
  · constructor
    · intro hd0
      obtain ⟨g1, g2⟩ := hg h hc Axis.X hd0
      simp only [Vec3.axis] at g1 g2
      rw [hpt] at g1 g2
      simp only [Ray.at_x] at g1 g2
      constructor <;> linarith
    · intro _
      rw [hpt] at i1 i4
      simp only [Ray.at_x] at i1 i4
      constructor <;> linarith
  · constructor
    · intro hd0
      obtain ⟨g1, g2⟩ := hg h hc Axis.Y hd0
      simp only [Vec3.axis] at g1 g2
      rw [hpt] at g1 g2
      simp only [Ray.at_y] at g1 g2
      constructor <;> linarith
    · intro _
      rw [hpt] at i2 i5
      simp only [Ray.at_y] at i2 i5
      constructor <;> linarith
  · constructor
    · intro hd0
      obtain ⟨g1, g2⟩ := hg h hc Axis.Z hd0
      simp only [Vec3.axis] at g1 g2
      rw [hpt] at g1 g2
      simp only [Ray.at_z] at g1 g2
      constructor <;> linarith
    · intro _
      rw [hpt] at i3 i6
      simp only [Ray.at_z] at i3 i6
      constructor <;> linarith

/-! Algebra of optional minima. -/

theorem combineMinQ_none_right (x : Option ℚ) : combineMinQ x none = x := by
  cases x <;> rfl

theorem combineMinQ_comm (x y : Option ℚ) : combineMinQ x y = combineMinQ y x := by
  cases x <;> cases y <;> simp [combineMinQ, min_comm]

theorem combineMinQ_assoc (x y z : Option ℚ) :
    combineMinQ (combineMinQ x y) z = combineMinQ x (combineMinQ y z) := by
  cases x <;> cases y <;> cases z <;> simp [combineMinQ, min_assoc]

theorem combineMinQ_left_comm (x y z : Option ℚ) :
    combineMinQ x (combineMinQ y z) = combineMinQ y (combineMinQ x z) := by
  rw [← combineMinQ_assoc, combineMinQ_comm x y, combineMinQ_assoc]

theorem combineMinQ_absorb {q h : ℚ} (hle : h ≤ q) (x : Option ℚ) :
    combineMinQ (some q) (combineMinQ (some h) x) = combineMinQ (some h) x := by
  cases x with
  | none => simp [combineMinQ, min_eq_right hle]
  | some b =>
    simp [combineMinQ]
    exact Or.inl hle

theorem listMin_cons (q : ℚ) (qs : List ℚ) :
    listMin (q :: qs) = combineMinQ (some q) (listMin qs) := by
  simp only [listMin]
  cases listMin qs <;> rfl

theorem listMin_append (xs ys : List ℚ) :
    listMin (xs ++ ys) = combineMinQ (listMin xs) (listMin ys) := by
  induction xs with
  | nil => rfl
  | cons q qs ih =>
    simp only [List.cons_append, listMin_cons, ih, combineMinQ_assoc]

theorem listMin_perm {xs ys : List ℚ} (hp : xs.Perm ys) :
    listMin xs = listMin ys := by
  induction hp with
  | nil => rfl
  | cons a _ ih => simp [listMin_cons, ih]
  | swap a b l =>
    simp only [listMin_cons]
    rw [combineMinQ_left_comm]
  | trans _ _ ih1 ih2 => rw [ih1, ih2]

/-! The brute-force scan and its interaction with interval shrinking. -/

theorem bruteTs_cons_none {p : Prim} {ps : List Prim} {r : Ray} {a b : ℚ}
    (hp : p.intersection r a b = none) :
    bruteTs (p :: ps) r a b = bruteTs ps r a b := by
  simp [bruteTs, List.filterMap_cons, hp]

theorem bruteTs_cons_some {p : Prim} {ps : List Prim} {r : Ray} {a b : ℚ}
    {h : Hit} (hp : p.intersection r a b = some h) :
    bruteTs (p :: ps) r a b = h.t :: bruteTs ps r a b := by
  simp [bruteTs, List.filterMap_cons, hp]

theorem bruteTs_append (ps qs : List Prim) (r : Ray) (a b : ℚ) :
    bruteTs (ps ++ qs) r a b = bruteTs ps r a b ++ bruteTs qs r a b := by
  simp [bruteTs, List.filterMap_append]

theorem brute_shrink (r : Ray) (a : ℚ) :
    ∀ (ps : List Prim) {q c : ℚ}, q < c →
      combineMinQ (some q) (listMin (bruteTs ps r a q)) =
        combineMinQ (some q) (listMin (bruteTs ps r a c)) := by
  intro ps
  induction ps with
  | nil => intro q c _; rfl
  | cons p ps' ih =>
    intro q c hqc
    cases hc : p.intersection r a c with
    | none =>
      rw [bruteTs_cons_none hc,
        bruteTs_cons_none (Prim.inter_none_shrink (le_of_lt hqc) hc), ih hqc]
    | some h =>
      rcases lt_or_le h.t q with hlt | hge
      · rw [bruteTs_cons_some (Prim.inter_shrink (le_of_lt hqc) hc hlt),
          bruteTs_cons_some hc, listMin_cons, listMin_cons,
          combineMinQ_left_comm, ih hqc, combineMinQ_left_comm]
      · rw [bruteTs_cons_none (Prim.inter_shrink_none (le_of_lt hqc) hc hge),
          bruteTs_cons_some hc, listMin_cons, ih hqc,
          combineMinQ_left_comm, combineMinQ_absorb hge]

theorem scanFold (r : Ray) (a : ℚ) :
    ∀ (ps : List Prim) (acc : Option Hit) (c : ℚ),
      (∀ hh, acc = some hh → hh.t = c) →
      ((ps.foldl
        (fun ac p =>
          match p.intersection r a ac.2 with
          | some h => (some h, h.t)
          | none => ac)
        (acc, c)).1).map Hit.t
        = combineMinQ (acc.map Hit.t) (listMin (bruteTs ps r a c)) := by
  intro ps
  induction ps with
  | nil =>
    intro acc c _
    simp only [List.foldl_nil, bruteTs, List.filterMap_nil, listMin]
    rw [combineMinQ_none_right]
  | cons p ps' ih =>
    intro acc c hacc
    simp only [List.foldl_cons]
    cases hp : p.intersection r a c with
    | some h =>
      have hlt : h.t < c := (Prim.inter_elim hp).2.2
      dsimp only
      rw [ih (some h) h.t (fun hh e => by injection e with e; rw [← e])]
      rw [bruteTs_cons_some hp, listMin_cons]
      have hside := brute_shrink r a ps' hlt
      simp only [Option.map_some']
      rw [hside]
      cases hoacc : acc with
      | none => simp [combineMinQ]
      | some hh =>
        have : hh.t = c := hacc hh hoacc
        simp only [Option.map_some', this]
        rw [combineMinQ_absorb (le_of_lt hlt)]
    | none =>
      dsimp only
      rw [ih acc c hacc, bruteTs_cons_none hp]

theorem leafScan_eq (ps : List Prim) (r : Ray) (a b : ℚ) :
    (leafScan ps r a b).map Hit.t = listMin (bruteTs ps r a b) := by
  unfold leafScan
  have := scanFold r a ps none b (by intro hh e; cases e)
  simpa [combineMinQ] using this

/-! The build-tree traversal computes the brute-force minimum. -/

theorem combineHits_t (l r : Option Hit) :
    (combineHits l r).map Hit.t = combineMinQ (l.map Hit.t) (r.map Hit.t) := by
  cases l with
  | none => cases r <;> rfl
  | some lh =>
    cases r with
    | none => rfl
    | some rh =>
      simp only [combineHits]
      split_ifs with hlt
      · simp [combineMinQ, min_eq_left (le_of_lt hlt)]
      · simp only [Option.map_some', combineMinQ]
        rw [min_eq_right (not_lt.mp hlt)]

theorem AABB.sub_trans {a b c : AABB} (h1 : a.sub b) (h2 : b.sub c) : a.sub c := by
  obtain ⟨x1, x2, x3, x4, x5, x6⟩ := h1
  obtain ⟨y1, y2, y3, y4, y5, y6⟩ := h2
  exact ⟨by linarith, by linarith, by linarith, by linarith, by linarith, by linarith⟩

theorem NodeOK_sub {G : List Prim} {node : BuildNode} {prims : List Prim}
    (h : NodeOK G node prims) : ∀ p ∈ prims, p.bnds.sub node.bounds := by
  induction h with
  | leaf bd go np prims hslice hsub =>
    intro p hp
    simpa [BuildNode.bounds] using hsub p hp
  | interior bd l r pl pr hl hr hbl hbr ihl ihr =>
    intro p hp
    rcases List.mem_append.mp hp with h1 | h2
    · exact AABB.sub_trans (ihl p h1) hbl
    · exact AABB.sub_trans (ihr p h2) hbr

theorem brute_none_of_box_false {prims : List Prim} {bd : AABB} {r : Ray}
    {a b : ℚ} (ha : 0 ≤ a)
    (hwf : ∀ p ∈ prims, PrimWF p) (hng : ∀ p ∈ prims, NoGraze p r)
    (hsub : ∀ p ∈ prims, p.bnds.sub bd)
    (hbox : ¬bd.has_intersection r a b = true) :
    bruteTs prims r a b = [] := by
  unfold bruteTs
  rw [List.filterMap_eq_nil]
  intro p hp
  cases hi : p.intersection r a b with
  | none => rfl
  | some h =>
    exact absurd (box_test_of_hit (hwf p hp) (hng p hp) (hsub p hp) ha hi a b) hbox

theorem intersectBuild_eq {G : List Prim} {r : Ray} {a b : ℚ} (ha : 0 ≤ a) :
    ∀ {node : BuildNode} {prims : List Prim}, NodeOK G node prims →
      (∀ p ∈ prims, PrimWF p) → (∀ p ∈ prims, NoGraze p r) →
      (intersectBuild G r a b node).map Hit.t = listMin (bruteTs prims r a b) := by
  intro node prims hok
  induction hok with
  | leaf bd go np prims hslice hsub =>
    intro hwf hng
    simp only [intersectBuild]
    by_cases hbox : bd.has_intersection r a b = true
    · simp only [hbox, if_true, hslice]
      exact leafScan_eq prims r a b
    · simp only [Bool.not_eq_true] at hbox
      simp only [hbox, Bool.false_eq_true, if_false]
      rw [brute_none_of_box_false ha hwf hng hsub (by simp [hbox])]
      rfl
  | interior bd l rn pl pr hl hr hbl hbr ihl ihr =>
    intro hwf hng
    have hwl : ∀ p ∈ pl, PrimWF p := fun p hp => hwf p (List.mem_append_left _ hp)
    have hwr : ∀ p ∈ pr, PrimWF p := fun p hp => hwf p (List.mem_append_right _ hp)
    have hnl : ∀ p ∈ pl, NoGraze p r := fun p hp => hng p (List.mem_append_left _ hp)
    have hnr : ∀ p ∈ pr, NoGraze p r := fun p hp => hng p (List.mem_append_right _ hp)
    simp only [intersectBuild]
    by_cases hbox : bd.has_intersection r a b = true
    · simp only [hbox, if_true]
      rw [combineHits_t, ihl hwl hnl, ihr hwr hnr, bruteTs_append, listMin_append]
    · have hsub : ∀ p ∈ pl ++ pr, p.bnds.sub bd := by
        intro p hp
        rcases List.mem_append.mp hp with h1 | h2
        · exact AABB.sub_trans (NodeOK_sub hl p h1) hbl
        · exact AABB.sub_trans (NodeOK_sub hr p h2) hbr
      simp only [Bool.not_eq_true] at hbox
      simp only [hbox, Bool.false_eq_true, if_false]
      rw [brute_none_of_box_false ha hwf hng hsub (by simp [hbox])]
      rfl

/-! Correctness of the flattening and simulation of the flat traversal by
the build-tree traversal. -/

theorem BuildNode.size_pos (node : BuildNode) : 0 < node.size := by
  cases node <;> simp [BuildNode.size]

theorem flatEnc_length : ∀ (off : ℕ) (node : BuildNode),
    (flatEnc off node).length = node.size := by
  intro off node
  induction node generalizing off with
  | interior bd l r ihl ihr =>
    simp [flatEnc, BuildNode.size, ihl, ihr]
    omega
  | leaf bd go np => rfl

theorem flatEnc_cons (off : ℕ) (node : BuildNode) :
    flatEnc off node = rootFlat off node :: flatEncChildren off node := by
  cases node <;> rfl

theorem set_mid {α : Type} (pre : List α) (a b : α) (post : List α) :
    (pre ++ a :: post).set pre.length b = pre ++ b :: post := by
  rw [List.set_append]
  simp

theorem flattenImpl_spec : ∀ (node : BuildNode) (tree : List FlatNode),
    flattenImpl node tree = (tree ++ flatEnc tree.length node, tree.length) := by
  intro node
  induction node with
  | leaf bd go np =>
    intro tree
    simp [flattenImpl, flatEnc]
  | interior bd l r ihl ihr =>
    intro tree
    simp only [flattenImpl]
    rw [ihl]
    simp only
    rw [ihr]
    simp only [List.length_append, List.length_cons, List.length_nil, flatEnc_length,
      Nat.zero_add]
    have assoc1 : tree ++ [(⟨bd, FlatNodeInner.interior 0 0⟩ : FlatNode)] ++
        flatEnc (tree.length + 1) l ++
        flatEnc (tree.length + 1 + l.size) r =
        tree ++ (⟨bd, FlatNodeInner.interior 0 0⟩ : FlatNode) ::
          (flatEnc (tree.length + 1) l ++ flatEnc (tree.length + 1 + l.size) r) := by
      simp
    rw [assoc1, set_mid]
    simp [flatEnc]

theorem intersectFlat_sim (G : List Prim) (r : Ray) (a b : ℚ) :
    ∀ (node : BuildNode) (pre post : List FlatNode) (fuel : ℕ), node.size ≤ fuel →
      intersectFlat (pre ++ flatEnc pre.length node ++ post) G r a b fuel
          (rootFlat pre.length node)
        = intersectBuild G r a b node := by
  intro node
  induction node with
  | leaf bd go np =>
    intro pre post fuel hf
    cases fuel with
    | zero => simp [BuildNode.size] at hf
    | succ f => simp only [intersectFlat, rootFlat, intersectBuild]
  | interior bd l rn ihl ihr =>
    intro pre post fuel hf
    have hsz : (BuildNode.interior bd l rn).size = 1 + l.size + rn.size := rfl
    cases fuel with
    | zero =>
      rw [hsz] at hf
      omega
    | succ f =>
      have hfl : l.size ≤ f := by rw [hsz] at hf; omega
      have hfr : rn.size ≤ f := by rw [hsz] at hf; omega
      have hTl : pre ++ flatEnc pre.length (BuildNode.interior bd l rn) ++ post
          = (pre ++ [rootFlat pre.length (BuildNode.interior bd l rn)]) ++
            (flatEnc (pre.length + 1) l ++ (flatEnc (pre.length + 1 + l.size) rn ++ post)) := by
        simp [flatEnc, rootFlat]
      have hget1 : (pre ++ flatEnc pre.length (BuildNode.interior bd l rn) ++ post)[pre.length + 1]?
          = some (rootFlat (pre.length + 1) l) := by
        rw [hTl, List.getElem?_append_right (by simp)]
        simp [flatEnc_cons]
      have hTr : pre ++ flatEnc pre.length (BuildNode.interior bd l rn) ++ post
          = ((pre ++ [rootFlat pre.length (BuildNode.interior bd l rn)]) ++
              flatEnc (pre.length + 1) l) ++
            (flatEnc (pre.length + 1 + l.size) rn ++ post) := by
        simp [flatEnc, rootFlat]
      have hget2 : (pre ++ flatEnc pre.length (BuildNode.interior bd l rn) ++ post)[pre.length + 1 + l.size]?
          = some (rootFlat (pre.length + 1 + l.size) rn) := by
        rw [hTr, List.getElem?_append_right (by
          simp only [List.length_append, List.length_cons, List.length_nil, flatEnc_length]
          omega)]
        have hidx : pre.length + 1 + l.size -
            ((pre ++ [rootFlat pre.length (BuildNode.interior bd l rn)]) ++
              flatEnc (pre.length + 1) l).length = 0 := by
          simp only [List.length_append, List.length_cons, List.length_nil, flatEnc_length]
          omega
        rw [hidx]
        simp [flatEnc_cons]
      have hcl : intersectFlat (pre ++ flatEnc pre.length (BuildNode.interior bd l rn) ++ post)
          G r a b f (rootFlat (pre.length + 1) l) = intersectBuild G r a b l := by
        have base := ihl (pre ++ [rootFlat pre.length (BuildNode.interior bd l rn)])
          (flatEnc (pre.length + 1 + l.size) rn ++ post) f hfl
        have hplen : (pre ++ [rootFlat pre.length (BuildNode.interior bd l rn)]).length
            = pre.length + 1 := by simp
        rw [hplen] at base
        rw [← base]
        congr 1
      have hcr : intersectFlat (pre ++ flatEnc pre.length (BuildNode.interior bd l rn) ++ post)
          G r a b f (rootFlat (pre.length + 1 + l.size) rn) = intersectBuild G r a b rn := by
        have base := ihr ((pre ++ [rootFlat pre.length (BuildNode.interior bd l rn)]) ++
          flatEnc (pre.length + 1) l) post f hfr
        have hplen : ((pre ++ [rootFlat pre.length (BuildNode.interior bd l rn)]) ++
            flatEnc (pre.length + 1) l).length = pre.length + 1 + l.size := by
          simp only [List.length_append, List.length_cons, List.length_nil, flatEnc_length]
        rw [hplen] at base
        rw [← base]
        congr 1
        rw [hTr]
        simp only [List.append_assoc]
      show intersectFlat (pre ++ flatEnc pre.length (BuildNode.interior bd l rn) ++ post)
          G r a b (f + 1) (rootFlat pre.length (BuildNode.interior bd l rn))
        = intersectBuild G r a b (BuildNode.interior bd l rn)
      simp only [intersectFlat, rootFlat, intersectBuild]
      by_cases hbox : bd.has_intersection r a b = true
      · simp only [hbox, if_true]
        rw [hget1, hget2]
        simp only [Option.some_bind]
        rw [hcl, hcr]
      · simp only [Bool.not_eq_true] at hbox
        simp only [hbox, Bool.false_eq_true, if_false]

/-! Invariants of the recursive SAH build. -/

theorem AABB.sub_union_left (a b : AABB) : a.sub (a.union b) := by
  unfold AABB.sub AABB.union
  refine ⟨?_, ?_, ?_, ?_, ?_, ?_⟩ <;> simp

theorem AABB.sub_union_right (a b : AABB) : b.sub (a.union b) := by
  unfold AABB.sub AABB.union
  refine ⟨?_, ?_, ?_, ?_, ?_, ?_⟩ <;> simp

theorem foldl_union_mono :
    ∀ (gs : List GeometryInfo) (x init : AABB), x.sub init →
      x.sub (gs.foldl (fun b g => b.union g.geom.bnds) init) := by
  intro gs
  induction gs with
  | nil => intro x init hx; exact hx
  | cons g gs ih =>
    intro x init hx
    exact ih x _ (AABB.sub_trans hx (AABB.sub_union_left _ _))

theorem mem_foldl_union :
    ∀ (gs : List GeometryInfo) (g : GeometryInfo), g ∈ gs → ∀ init : AABB,
      (g.geom.bnds).sub (gs.foldl (fun b x => b.union x.geom.bnds) init) := by
  intro gs
  induction gs with
  | nil => intro g hg; cases hg
  | cons h t ih =>
    intro g hg init
    rcases List.mem_cons.mp hg with h1 | h2
    · subst h1
      exact foldl_union_mono t _ _ (AABB.sub_union_right _ _)
    · exact ih g h2 _

theorem partitionStep_perm (gs : List GeometryInfo) :
    (partitionStep gs).1.Perm gs := by
  simp only [partitionStep]
  exact List.Perm.trans (List.perm_append_comm) (List.filter_append_perm _ gs)

theorem partitionStep_length (gs : List GeometryInfo) :
    (partitionStep gs).1.length = gs.length :=
  (partitionStep_perm gs).length_eq

theorem partitionStep_mem {gs : List GeometryInfo} {g : GeometryInfo}
    (hg : g ∈ (partitionStep gs).1) : g ∈ gs :=
  (partitionStep_perm gs).mem_iff.mp hg

theorem build_perm_count (st : ℕ) :
    ∀ (fuel : ℕ) (gsI : List GeometryInfo) (off : ℕ) (node : BuildNode)
      (idxs : List ℕ) (cnt : ℕ),
      build fuel gsI off st = some (node, idxs, cnt) →
      idxs.Perm (gsI.map GeometryInfo.index) ∧ cnt = node.size := by
  intro fuel
  induction fuel with
  | zero =>
    intro gsI off node idxs cnt hb
    cases hb
  | succ fuel ih =>
    intro gsI off node idxs cnt hb
    rw [build] at hb
    dsimp only at hb
    split at hb
    · rw [Option.some_inj] at hb
      injection hb with h1 h23
      injection h23 with h2 h3
      subst h1
      subst h2
      subst h3
      exact ⟨List.Perm.refl _, rfl⟩
    · split at hb
      · split at hb
        · cases hb
        · rename_i hguard hassert
          split at hb
          · cases hb
          · rename_i ln lidx lcnt heq1
            split at hb
            · cases hb
            · rename_i rn ridx rcnt heq2
              rw [Option.some_inj] at hb
              injection hb with h1 h23
              injection h23 with h2 h3
              subst h1
              subst h2
              subst h3
              have hl := ih _ off ln lidx lcnt heq1
              have hr := ih _ (off + lidx.length) rn ridx rcnt heq2
              constructor
              · have hcat : (lidx ++ ridx).Perm
                    (((partitionStep gsI).1.take (partitionStep gsI).2).map GeometryInfo.index ++
                      ((partitionStep gsI).1.drop (partitionStep gsI).2).map GeometryInfo.index) :=
                  List.Perm.append hl.1 hr.1
                refine hcat.trans ?_
                rw [← List.map_append, List.take_append_drop]
                exact List.Perm.map _ (partitionStep_perm gsI)
              · rw [hl.2, hr.2]
                rfl
      · rw [Option.some_inj] at hb
        injection hb with h1 h23
        injection h23 with h2 h3
        subst h1
        subst h2
        subst h3
        exact ⟨List.Perm.refl _, rfl⟩

theorem build_nodeOK (st : ℕ) (f : ℕ → Prim) :
    ∀ (fuel : ℕ) (gsI : List GeometryInfo) (off : ℕ) (node : BuildNode)
      (idxs : List ℕ) (cnt : ℕ),
      build fuel gsI off st = some (node, idxs, cnt) →
      (∀ g ∈ gsI, f g.index = g.geom) →
      ∀ (pre post G : List Prim), pre.length = off →
        G = pre ++ idxs.map f ++ post →
        NodeOK G node (idxs.map f) := by
  intro fuel
  induction fuel with
  | zero =>
    intro gsI off node idxs cnt hb
    cases hb
  | succ fuel ih =>
    intro gsI off node idxs cnt hb hinfo pre post G hpre hG
    rw [build] at hb
    dsimp only at hb
    split at hb
    · rw [Option.some_inj] at hb
      injection hb with h1 h23
      injection h23 with h2 h3
      subst h1
      subst h2
      apply NodeOK.leaf
      · show slice G off gsI.length = (gsI.map GeometryInfo.index).map f
        unfold slice
        subst hpre
        rw [hG, List.append_assoc, List.drop_left, List.take_left']
        simp
      · intro p hp
        rcases List.mem_map.mp hp with ⟨i, hi, hpi⟩
        rcases List.mem_map.mp hi with ⟨g, hg, hgi⟩
        have : p = g.geom := by rw [← hpi, ← hgi, hinfo g hg]
        rw [this]
        exact mem_foldl_union gsI g hg AABB.deflt
    · split at hb
      · split at hb
        · cases hb
        · rename_i hguard hassert
          split at hb
          · cases hb
          · rename_i ln lidx lcnt heq1
            split at hb
            · cases hb
            · rename_i rn ridx rcnt heq2
              rw [Option.some_inj] at hb
              injection hb with h1 h23
              injection h23 with h2 h3
              subst h1
              subst h2
              have hinfol : ∀ g ∈ (partitionStep gsI).1.take (partitionStep gsI).2,
                  f g.index = g.geom := fun g hg =>
                hinfo g (partitionStep_mem (List.take_subset _ _ hg))
              have hinfor : ∀ g ∈ (partitionStep gsI).1.drop (partitionStep gsI).2,
                  f g.index = g.geom := fun g hg =>
                hinfo g (partitionStep_mem (List.drop_subset _ _ hg))
              have hnl := ih _ off ln lidx lcnt heq1 hinfol
                pre (ridx.map f ++ post) G hpre
                (by rw [hG, List.map_append]; simp [List.append_assoc])
              have hnr := ih _ (off + lidx.length) rn ridx rcnt heq2 hinfor
                (pre ++ lidx.map f) post G
                (by simp [hpre])
                (by rw [hG, List.map_append]; simp [List.append_assoc])
              show NodeOK G (BuildNode.mkInterior ln rn) ((lidx ++ ridx).map f)
              rw [List.map_append]
              exact NodeOK.interior _ ln rn (lidx.map f) (ridx.map f) hnl hnr
                (AABB.sub_union_left _ _) (AABB.sub_union_right _ _)
      · rw [Option.some_inj] at hb
        injection hb with h1 h23
        injection h23 with h2 h3
        subst h1
        subst h2
        apply NodeOK.leaf
        · show slice G off gsI.length = (gsI.map GeometryInfo.index).map f
          unfold slice
          subst hpre
          rw [hG, List.append_assoc, List.drop_left, List.take_left']
          simp
        · intro p hp
          rcases List.mem_map.mp hp with ⟨i, hi, hpi⟩
          rcases List.mem_map.mp hi with ⟨g, hg, hgi⟩
          have : p = g.geom := by rw [← hpi, ← hgi, hinfo g hg]
          rw [this]
          exact mem_foldl_union gsI g hg AABB.deflt

/-! Assembly: the flat BVH produced by `BVH::new` answers nearest-hit
queries with the brute-force minimum. -/

theorem mapM_getElem {α : Type} (d : α) :
    ∀ (idxs : List ℕ) (gs : List α) (L : List α),
      idxs.mapM (fun i => gs[i]?) = some L →
      L = idxs.map (fun i => gs.getD i d) ∧ ∀ i ∈ idxs, i < gs.length := by
  intro idxs
  induction idxs with
  | nil =>
    intro gs L h
    have h' : some ([] : List α) = some L := h
    injection h' with h''
    refine ⟨h''.symm, ?_⟩
    intro i hi
    cases hi
  | cons i is ih =>
    intro gs L h
    rw [List.mapM_cons] at h
    cases hi : gs[i]? with
    | none => rw [hi] at h; simp at h
    | some v =>
      rw [hi] at h
      cases hrest : is.mapM (fun i => gs[i]?) with
      | none => rw [hrest] at h; simp at h
      | some L' =>
        rw [hrest] at h
        simp at h
        obtain ⟨hL', hmem⟩ := ih gs L' hrest
        obtain ⟨hlen, _⟩ := List.getElem?_eq_some.mp hi
        constructor
        · rw [← h, hL']
          simp [List.getD_eq_getElem?_getD, hi]
        · intro j hj
          rcases List.mem_cons.mp hj with h1 | h2
          · subst h1; exact hlen
          · exact hmem j h2

theorem map_getD_range {α : Type} (d : α) (gs : List α) :
    (List.range gs.length).map (fun i => gs.getD i d) = gs := by
  induction gs with
  | nil => rfl
  | cons a t ih =>
    rw [List.length_cons, List.range_succ_eq_map, List.map_cons, List.map_map]
    have htail : (List.range t.length).map ((fun i => (a :: t).getD i d) ∘ Nat.succ)
        = (List.range t.length).map (fun i => t.getD i d) := by
      apply List.map_congr_left
      intro i _
      rfl
    rw [htail, ih]
    rfl

theorem mkInfos_map_index (gs : List Prim) :
    (mkInfos gs).map GeometryInfo.index = List.range gs.length := by
  unfold mkInfos
  rw [List.map_map]
  exact List.enum_map_fst gs

theorem mkInfos_info (gs : List Prim) :
    ∀ g ∈ mkInfos gs, (fun i => gs.getD i primDflt) g.index = g.geom := by
  intro g hg
  unfold mkInfos at hg
  rcases List.mem_map.mp hg with ⟨ig, higmem, hig⟩
  have hget : gs[ig.1]? = some ig.2 := List.mem_enum_iff_getElem?.mp higmem
  rw [← hig]
  simp [List.getD_eq_getElem?_getD, hget]

theorem BVH.new_elim {gs : List Prim} {bvh : BVH} (h : BVH.new gs = some bvh) :
    ∃ root idxs total,
      build (mkInfos gs).length (mkInfos gs) 0 64 = some (root, idxs, total) ∧
      idxs.mapM (fun i => gs[i]?) = some bvh.geometry ∧
      bvh.tree = flatten root total := by
  unfold BVH.new at h
  split at h
  · cases h
  · split at h
    · cases h
    · rename_i root idxs total heq
      split at h
      · cases h
      · rename_i sorted hmapM
        rw [Option.some_inj] at h
        refine ⟨root, idxs, total, heq, ?_, ?_⟩
        · rw [← h]
          exact hmapM
        · rw [← h]

/-- Full specification of `BVH::intersection` against the brute-force
linear scan, for any scene of `Intersect` implementors satisfying the
trait contract (hits on the ray inside their bounds, graze-free on
zero-direction axes) and any interval starting at a nonnegative
parameter. -/
theorem bvh_query_spec (gs : List Prim) (r : Ray) (a b : ℚ) (bvh : BVH)
    (hwf : ∀ p ∈ gs, PrimWF p) (hng : ∀ p ∈ gs, NoGraze p r)
    (ha : 0 ≤ a) (hnew : BVH.new gs = some bvh) :
    (bvh.intersection r a b).map Hit.t = bruteMin gs r a b := by
  obtain ⟨root, idxs, total, hbuild, hmapM, htree⟩ := BVH.new_elim hnew
  obtain ⟨hGeq, hbound⟩ := mapM_getElem primDflt idxs gs bvh.geometry hmapM
  obtain ⟨hperm, hcnt⟩ := build_perm_count 64 (mkInfos gs).length (mkInfos gs) 0
    root idxs total hbuild
  have hpermr : idxs.Perm (List.range gs.length) := by
    rw [← mkInfos_map_index gs]
    exact hperm
  have hGperm : bvh.geometry.Perm gs := by
    rw [hGeq]
    refine (hpermr.map (fun i => gs.getD i primDflt)).trans ?_
    rw [map_getD_range]
  have hok : NodeOK bvh.geometry root (idxs.map (fun i => gs.getD i primDflt)) :=
    build_nodeOK 64 (fun i => gs.getD i primDflt) (mkInfos gs).length (mkInfos gs)
      0 root idxs total hbuild (mkInfos_info gs) [] [] bvh.geometry rfl
      (by rw [hGeq]; simp)
  have hwfG : ∀ p ∈ idxs.map (fun i => gs.getD i primDflt), PrimWF p := by
    intro p hp
    apply hwf
    rw [← hGeq] at hp
    exact hGperm.mem_iff.mp hp
  have hngG : ∀ p ∈ idxs.map (fun i => gs.getD i primDflt), NoGraze p r := by
    intro p hp
    apply hng
    rw [← hGeq] at hp
    exact hGperm.mem_iff.mp hp
  have hbeq : (intersectBuild bvh.geometry r a b root).map Hit.t
      = listMin (bruteTs (idxs.map (fun i => gs.getD i primDflt)) r a b) :=
    intersectBuild_eq ha hok hwfG hngG
  have htree2 : bvh.tree = flatEnc 0 root := by
    rw [htree]
    unfold flatten
    rw [flattenImpl_spec]
    rfl
  have hqry : bvh.intersection r a b = intersectBuild bvh.geometry r a b root := by
    unfold BVH.intersection
    rw [htree2, flatEnc_cons, List.head?_cons]
    have hfuel : (flatEnc 0 root).length = root.size := flatEnc_length 0 root
    have hsim := intersectFlat_sim bvh.geometry r a b root [] [] root.size le_rfl
    simp only [List.nil_append, List.append_nil, List.length_nil] at hsim
    rw [← flatEnc_cons, hfuel]
    exact hsim
  rw [hqry, hbeq]
  unfold bruteMin
  apply listMin_perm
  apply List.Perm.filterMap
  rw [← hGeq]
  exact hGperm

/-! Real-vector component lemmas and well-formedness of the test
primitive. -/

@[simp] theorem Vec3R.addR_x (a b : Vec3R) : (a + b).x = a.x + b.x := rfl

@[simp] theorem Vec3R.addR_y (a b : Vec3R) : (a + b).y = a.y + b.y := rfl

@[simp] theorem Vec3R.addR_z (a b : Vec3R) : (a + b).z = a.z + b.z := rfl

@[simp] theorem Vec3R.subR_x (a b : Vec3R) : (a - b).x = a.x - b.x := rfl

@[simp] theorem Vec3R.subR_y (a b : Vec3R) : (a - b).y = a.y - b.y := rfl

@[simp] theorem Vec3R.subR_z (a b : Vec3R) : (a - b).z = a.z - b.z := rfl

@[simp] theorem Vec3R.smulR_x (q : ℝ) (v : Vec3R) : (q • v).x = q * v.x := rfl

@[simp] theorem Vec3R.smulR_y (q : ℝ) (v : Vec3R) : (q • v).y = q * v.y := rfl

@[simp] theorem Vec3R.smulR_z (q : ℝ) (v : Vec3R) : (q • v).z = q * v.z := rfl

@[simp] theorem Vec3R.zero_x : (0 : Vec3R).x = 0 := rfl

@[simp] theorem Vec3R.zero_y : (0 : Vec3R).y = 0 := rfl

@[simp] theorem Vec3R.zero_z : (0 : Vec3R).z = 0 := rfl

theorem linePrim_wf (ts : List ℚ) (bx : AABB) : PrimWF (linePrim ts bx) := by
  intro r h hmem
  unfold linePrim at hmem
  simp only at hmem
  rcases List.mem_filterMap.mp hmem with ⟨t, _, hsome⟩
  by_cases hc : bx.containsPoint (r.at t)
  · rw [if_pos hc] at hsome
    injection hsome with he
    rw [← he]
    exact ⟨rfl, hc⟩
  · rw [if_neg hc] at hsome
    cases hsome

theorem scnB_wf : ∀ p ∈ scnB, PrimWF p := by
  intro p hp
  unfold scnB at hp
  rcases List.mem_cons.mp hp with h | h
  · rw [h]
    exact linePrim_wf _ _
  · rcases List.mem_cons.mp h with h2 | h2
    · rw [h2]
      exact linePrim_wf _ _
    · cases h2

theorem scnB_ng : ∀ p ∈ scnB, NoGraze p rayB := by
  intro p _ h _ ax hax
  exfalso
  cases ax <;> simp [rayB, Vec3.axis] at hax

/-! The claims. -/

/-- C1 (amended): for every scene of `Intersect` implementors satisfying
the trait contract, every ray, and every interval `(t_min, t_max)` with
`0 ≤ t_min`, when the BVH nearest-hit query returns a hit its `t` equals
the minimum `t` over a brute-force linear scan of every primitive's
nearest-hit query in the same interval, and when the brute-force scan
finds a hit the query returns one.  (As stated, for arbitrary intervals,
the claim is false: the leaf/interior box test compares only against 0,
pruning hits behind the ray origin that a negative `t_min` allows — see
the counterexample.) -/
theorem C1_bvh_query_matches_brute (gs : List Prim) (r : Ray) (a b : ℚ)
    (bvh : BVH) (hwf : ∀ p ∈ gs, PrimWF p) (hng : ∀ p ∈ gs, NoGraze p r)
    (ha : 0 ≤ a) (hnew : BVH.new gs = some bvh) :
    (∀ h, bvh.intersection r a b = some h → bruteMin gs r a b = some h.t) ∧
    (bruteMin gs r a b ≠ none → bvh.intersection r a b ≠ none) := by
  have hs := bvh_query_spec gs r a b bvh hwf hng ha hnew
  constructor
  · intro h hh
    rw [hh] at hs
    simp only [Option.map_some'] at hs
    exact hs.symm
  · intro hne hq
    rw [hq] at hs
    simp only [Option.map_none'] at hs
    exact hne hs.symm

/-- Witness for C1: a concrete two-primitive scene where the built BVH's
query at interval `(1/100, 100)` returns the brute-force minimum. -/
theorem C1_witness :
    (∀ p ∈ scnB, PrimWF p) ∧ (∀ p ∈ scnB, NoGraze p rayB) ∧
    (0 ≤ (1 / 100 : ℚ)) ∧ BVH.new scnB = some bvhB ∧
    (∀ h, bvhB.intersection rayB (1 / 100) 100 = some h →
      bruteMin scnB rayB (1 / 100) 100 = some h.t) :=
  ⟨scnB_wf, scnB_ng, by norm_num, by with_unfolding_all rfl,
   (C1_bvh_query_matches_brute scnB rayB (1 / 100) 100 bvhB scnB_wf scnB_ng
     (by norm_num) (by with_unfolding_all rfl)).1⟩

/-- Counterexample to C1 as stated: with the interval `(-100, 100)` the
brute-force scan over the one-sphere-like scene finds the hit at
parameter -4 (behind the ray origin), but the BVH query prunes the root
box (its slab test compares against 0, not `t_min`) and returns no
hit. -/
theorem C1_counterexample :
    BVH.new [primA] = some bvhA ∧
    bvhA.intersection rayA (-100) 100 = none ∧
    bruteMin [primA] rayA (-100) 100 = some (-4) :=
  ⟨by with_unfolding_all rfl, by with_unfolding_all decide,
   by with_unfolding_all decide⟩

/-- C4: for every scene, the permutation array produced during the build
(the concatenation of all leaves' index ranges) is a permutation of
`0..N`: each original primitive index appears exactly once. -/
theorem C4_permutation_bijection (gs : List Prim) (fuel : ℕ)
    (root : BuildNode) (idxs : List ℕ) (total : ℕ)
    (hb : build fuel (mkInfos gs) 0 64 = some (root, idxs, total)) :
    idxs.Perm (List.range gs.length) := by
  have h := (build_perm_count 64 fuel (mkInfos gs) 0 root idxs total hb).1
  rw [mkInfos_map_index] at h
  exact h

/-- Witness for C4 at the concrete two-primitive scene. -/
theorem C4_witness :
    build (mkInfos scnB).length (mkInfos scnB) 0 64
      = some (buildResB.1, buildResB.2.1, buildResB.2.2) ∧
    buildResB.2.1.Perm (List.range scnB.length) :=
  ⟨by with_unfolding_all rfl,
   C4_permutation_bijection scnB (mkInfos scnB).length buildResB.1
     buildResB.2.1 buildResB.2.2 (by with_unfolding_all rfl)⟩

/-- C6: the total node count recorded during the recursive build equals
the number of entries in the flattened tree. -/
theorem C6_flatten_length (gs : List Prim) (fuel : ℕ) (root : BuildNode)
    (idxs : List ℕ) (total : ℕ)
    (hb : build fuel (mkInfos gs) 0 64 = some (root, idxs, total)) :
    (flatten root total).length = total := by
  have h := (build_perm_count 64 fuel (mkInfos gs) 0 root idxs total hb).2
  unfold flatten
  rw [flattenImpl_spec]
  simp only [List.nil_append, List.length_nil, flatEnc_length]
  exact h.symm

/-- Witness for C6 at the concrete two-primitive scene. -/
theorem C6_witness :
    build (mkInfos scnB).length (mkInfos scnB) 0 64
      = some (buildResB.1, buildResB.2.1, buildResB.2.2) ∧
    (flatten buildResB.1 buildResB.2.2).length = buildResB.2.2 :=
  ⟨by with_unfolding_all rfl,
   C6_flatten_length scnB (mkInfos scnB).length buildResB.1 buildResB.2.1
     buildResB.2.2 (by with_unfolding_all rfl)⟩

/-- C7: BVH construction called with an empty instance list fails fatally
(the `assert!` panic, modelled by `none`); it never returns a BVH for an
empty scene. -/
theorem C7_empty_scene_panics : ∀ gs : List Prim, gs = [] → BVH.new gs = none := by
  intro gs h
  subst h
  rfl

/-- Witness for C7: the empty scene itself. -/
theorem C7_witness : BVH.new ([] : List Prim) = none :=
  C7_empty_scene_panics [] rfl

/-- C9: for all boxes, the union contains every point of both inputs and
is commutative. -/
theorem C9_union_contains_comm : ∀ a b : AABB,
    a.union b = b.union a ∧
    (∀ p : Vec3, a.containsPoint p → (a.union b).containsPoint p) ∧
    (∀ p : Vec3, b.containsPoint p → (a.union b).containsPoint p) := by
  intro a b
  refine ⟨?_, ?_, ?_⟩
  · simp only [AABB.union]
    rw [min_comm a.min.x, min_comm a.min.y, min_comm a.min.z,
      max_comm a.max.x, max_comm a.max.y, max_comm a.max.z]
  · intro p hp
    obtain ⟨c1, c2, c3, c4, c5, c6⟩ := hp
    exact ⟨le_trans (min_le_left _ _) c1, le_trans (min_le_left _ _) c2,
      le_trans (min_le_left _ _) c3, le_trans c4 (le_max_left _ _),
      le_trans c5 (le_max_left _ _), le_trans c6 (le_max_left _ _)⟩
  · intro p hp
    obtain ⟨c1, c2, c3, c4, c5, c6⟩ := hp
    exact ⟨le_trans (min_le_right _ _) c1, le_trans (min_le_right _ _) c2,
      le_trans (min_le_right _ _) c3, le_trans c4 (le_max_right _ _),
      le_trans c5 (le_max_right _ _), le_trans c6 (le_max_right _ _)⟩

/-- Witness for C9 at concrete boxes and a concrete point. -/
theorem C9_witness :
    box1.containsPoint ⟨1 / 2, 1 / 2, 1 / 2⟩ ∧
    (box1.union box2).containsPoint ⟨1 / 2, 1 / 2, 1 / 2⟩ :=
  ⟨by with_unfolding_all decide,
   (C9_union_contains_comm box1 box2).2.1 _ (by with_unfolding_all decide)⟩

/-- C10: `AABB::has_intersection` ignores its `t_min` and `t_max`
arguments entirely (they are bound as `_t_min`, `_t_max` in the source):
the slab test's outcome is identical for any two argument pairs. -/
theorem C10_slab_ignores_interval : ∀ (bx : AABB) (r : Ray) (t1 t2 t1' t2' : ℚ),
    bx.has_intersection r t1 t2 = bx.has_intersection r t1' t2' :=
  fun _ _ _ _ _ _ => rfl

/-- Counterexample to C5 as stated: the box with extents (1, 1, 0) ties X
with Y on the largest extent, and the code returns Y, not X as the
claimed tie-break ("X wins ties with Y and Z") requires. -/
theorem C5_counterexample :
    boxTie.max_extent = Axis.Y ∧
    (boxTie.max - boxTie.min).x = (boxTie.max - boxTie.min).y ∧
    (boxTie.max - boxTie.min).z < (boxTie.max - boxTie.min).x ∧
    Axis.Y ≠ Axis.X := by
  with_unfolding_all decide

/-- C5 (amended): `max_extent` returns an axis attaining the largest
`max - min` component, with the strict tie-break of the source: X is
returned only when strictly larger than both Y and Z (so X loses ties),
and otherwise Y is returned only when strictly larger than Z (so Y loses
the tie with Z). -/
theorem C5_max_extent_strict (bx : AABB) :
    (bx.max - bx.min).axis bx.max_extent
      = Max.max (Max.max ((bx.max - bx.min).x) ((bx.max - bx.min).y))
          ((bx.max - bx.min).z) ∧
    (bx.max_extent = Axis.X ↔
      (bx.max - bx.min).y < (bx.max - bx.min).x ∧
      (bx.max - bx.min).z < (bx.max - bx.min).x) ∧
    (bx.max_extent = Axis.Y ↔
      ¬((bx.max - bx.min).y < (bx.max - bx.min).x ∧
        (bx.max - bx.min).z < (bx.max - bx.min).x) ∧
      (bx.max - bx.min).z < (bx.max - bx.min).y) := by
  unfold AABB.max_extent
  dsimp only
  by_cases h1 : (bx.max - bx.min).y < (bx.max - bx.min).x ∧
      (bx.max - bx.min).z < (bx.max - bx.min).x
  · rw [if_pos h1]
    refine ⟨?_, iff_of_true rfl h1, iff_of_false (by decide) (fun hc => hc.1 h1)⟩
    show (bx.max - bx.min).x = _
    rw [max_eq_left h1.1.le, max_eq_left h1.2.le]
  · rw [if_neg h1]
    by_cases h2 : (bx.max - bx.min).z < (bx.max - bx.min).y
    · rw [if_pos h2]
      refine ⟨?_, iff_of_false (by decide) h1, iff_of_true rfl ⟨h1, h2⟩⟩
      show (bx.max - bx.min).y = _
      have hxy : (bx.max - bx.min).x ≤ (bx.max - bx.min).y := by
        rcases not_and_or.mp h1 with h | h
        · exact not_lt.mp h
        · have := not_lt.mp h
          linarith
      rw [max_eq_right hxy, max_eq_left h2.le]
    · rw [if_neg h2]
      refine ⟨?_, iff_of_false (by decide) h1, iff_of_false (by decide) (fun hc => h2 hc.2)⟩
      show (bx.max - bx.min).z = _
      have hyz : (bx.max - bx.min).y ≤ (bx.max - bx.min).z := not_lt.mp h2
      have hxz : (bx.max - bx.min).x ≤ (bx.max - bx.min).z := by
        rcases not_and_or.mp h1 with h | h
        · exact le_trans (not_lt.mp h) hyz
        · exact not_lt.mp h
      rw [max_eq_right (max_le hxz hyz)]

/-- C3 (amended): the integrator returns black whenever the bounce
counter strictly exceeds `MAX_BOUNCES` (the source comparison is
`*bounces > MAX_BOUNCES`, so at `bounce_count = MAX_BOUNCES` it still
traces — see the counterexample). -/
theorem C3_bounce_limit (scatter : ℕ → Ray → Hit → Option ScatterResult)
    (bvh : BVH) (ray : Ray) (bounces : ℕ) (h : MAX_BOUNCES < bounces) :
    color scatter bvh ray bounces = 0 := by
  rw [color]
  rw [dif_pos h]

/-- Witness for C3 at a concrete bounce count just past the limit. -/
theorem C3_witness : MAX_BOUNCES < 129 ∧ color scat0 bvhEmpty rayMiss 129 = 0 :=
  ⟨by with_unfolding_all decide,
   C3_bounce_limit scat0 bvhEmpty rayMiss 129 (by with_unfolding_all decide)⟩

/-- Counterexample to C3 as stated: called with `bounce_count` equal to
the bounce limit (128 = MAX_BOUNCES, so `bounce_count >= max_bounces`
holds) on a ray that hits nothing, the integrator returns the background
gradient, which is not black. -/
theorem C3_counterexample :
    128 = MAX_BOUNCES ∧ color scat0 bvhB rayMiss 128 ≠ 0 := by
  refine ⟨rfl, ?_⟩
  rw [color]
  rw [dif_neg (by with_unfolding_all decide : ¬MAX_BOUNCES < 128)]
  rw [show bvhB.intersection rayMiss (1 / 10000) 10000000 = none from
    by with_unfolding_all decide]
  intro heq
  have hx := congrArg Vec3R.x heq
  simp only [backgroundColor, Vec3R.normalize, Vec3R.length, Vec3R.dot,
    Vec3.toR, rayMiss, Vec3R.zero_x] at hx
  norm_num [Real.sqrt_one] at hx

/-- C8 (amended): `refract` returns no solution exactly when the
discriminant `1 - ni_over_nt^2 * (1 - dot(v,n)^2)` (with `v` normalized)
is nonpositive — the source tests `discriminant > 0.0`, so a zero
discriminant also yields no solution — and otherwise returns
`ni_over_nt * (v - n*dot(v,n)) - n*sqrt(discriminant)` with `v`
normalized. -/
theorem C8_refract_none_iff (v n : Vec3R) (ni : ℝ) :
    (refract v n ni = none ↔ refractDiscriminant v n ni ≤ 0) ∧
    (0 < refractDiscriminant v n ni →
      refract v n ni = some (ni • (v.normalize - (v.normalize.dot n) • n)
        - Real.sqrt (refractDiscriminant v n ni) • n)) := by
  unfold refract refractDiscriminant
  dsimp only
  constructor
  · split_ifs with h
    · constructor
      · intro hx
        cases hx
      · intro hx
        linarith
    · simp only [not_lt] at h
      exact iff_of_true rfl h
  · intro h
    rw [if_pos h]

/-- Witness for C8 at a positive-discriminant input. -/
theorem C8_witness :
    0 < refractDiscriminant v0R n0R (1 / 2) ∧
    refract v0R n0R (1 / 2) = some ((1 / 2 : ℝ) • (v0R.normalize
      - (v0R.normalize.dot n0R) • n0R)
      - Real.sqrt (refractDiscriminant v0R n0R (1 / 2)) • n0R) := by
  have hd : 0 < refractDiscriminant v0R n0R (1 / 2) := by
    unfold refractDiscriminant Vec3R.normalize Vec3R.length Vec3R.dot v0R n0R
    norm_num [Real.sqrt_one]
  exact ⟨hd, (C8_refract_none_iff v0R n0R (1 / 2)).2 hd⟩

/-- Counterexample to C8 as stated: at `v = (1,0,0)`, `n = (0,1,0)`,
`ni_over_nt = 1` the discriminant is exactly 0 — not negative, so the
claim requires a refracted vector — yet the code returns no solution. -/
theorem C8_counterexample :
    refract v0R n0R 1 = none ∧ ¬(refractDiscriminant v0R n0R 1 < 0) := by
  have hd : refractDiscriminant v0R n0R 1 = 0 := by
    unfold refractDiscriminant Vec3R.normalize Vec3R.length Vec3R.dot v0R n0R
    norm_num [Real.sqrt_one]
  constructor
  · unfold refract
    dsimp only
    rw [if_neg]
    intro hlt
    have : refractDiscriminant v0R n0R 1
        = 1 - 1 * 1 * (1 - v0R.normalize.dot n0R * v0R.normalize.dot n0R) := rfl
    rw [this] at hd
    linarith
  · rw [hd]
    norm_num

/-- C2 (evaluating the code at the failing input): `Instance::intersection`
only subtracts the transform's translation from the ray origin, returns
the hit point (and normal) in the primitive's local space without
transforming them back to world space — the returned point differs from
`ray.at t` — and ignores the scale component of the transform entirely,
contrary to the specified complete affine contract. -/
theorem C2_instance_transform_bug :
    Instance.intersection inst0 ray0 0 100
      = some (Hit.mk 4 ⟨-1, 0, 0⟩ 0 (some 7)) ∧
    (⟨-1, 0, 0⟩ : Vec3) ≠ ray0.at 4 ∧
    (∀ (p : Prim) (m : ℕ) (tr s1 s2 : Vec3) (r : Ray) (a b : ℚ),
      Instance.intersection ⟨p, m, ⟨tr, s1⟩⟩ r a b
        = Instance.intersection ⟨p, m, ⟨tr, s2⟩⟩ r a b) :=
  ⟨by with_unfolding_all decide, by with_unfolding_all decide,
   fun _ _ _ _ _ _ _ _ => rfl⟩

end Pathtracer
